import Mathlib

/-!
Verification of the typo-tolerant trie search (`simplesearch.py`).

The development shallowly embeds the two classes of the source:

* `Trie` with `insert` and `fuzzySearch` (the incremental windowed
  Levenshtein dynamic program over a prefix trie), and
* `Index` (`SearchIndex` in the spec) composing the trie with an
  inverted word-to-documents mapping.

Strings are modelled as `List Char`; Python sets as `Finset`.
-/

/-! ## Normalization (`Trie.preprocess`) -/

/-- Python `str.lower`, modelled on the ASCII range: map `A`-`Z` to
`a`-`z` and leave every other character unchanged.  (The source replaces
every non-ASCII character with a placeholder right after lowering, so
the model only diverges on the rare non-ASCII characters whose
lower-case form crosses the ASCII boundary, such as the Kelvin sign.) -/
def pyLower (c : Char) : Char :=
  if 65 ≤ c.toNat ∧ c.toNat ≤ 90 then Char.ofNat (c.toNat + 32) else c

/-- Membership in Python `string.punctuation`: ASCII codes 33-47, 58-64,
91-96 and 123-126. -/
def isPunct (c : Char) : Bool :=
  (33 ≤ c.toNat && c.toNat ≤ 47) || (58 ≤ c.toNat && c.toNat ≤ 64) ||
  (91 ≤ c.toNat && c.toNat ≤ 96) || (123 ≤ c.toNat && c.toNat ≤ 126)

/-- Python `.encode("ascii", "replace").decode()`: characters above 127
become the placeholder question mark. -/
def asciiReplace (c : Char) : Char :=
  if c.toNat ≤ 127 then c else '?'

/-- `Trie.preprocess`: lower-case, strip punctuation, replace non-ASCII. -/
def preprocess (s : List Char) : List Char :=
  ((s.map pyLower).filter (fun c => !isPunct c)).map asciiReplace

/-! ## The trie (`Node` and `Trie`)

A `Node` of the Python source carries `word` (the prefix spelled by the
path from the root), a `parent` pointer, a `children` dict and the
`is_word` flag.  The prefix and the parent pointer are derivable from
the position of the node in the tree, so the embedded tree keeps only
the flag and the ordered children association list. -/

inductive Trie : Type where
  | mk : Bool → List (Char × Trie) → Trie

/-- The `is_word` flag of a node. -/
def Trie.isWord : Trie → Bool
  | .mk b _ => b

/-- The `children` dict of a node, as an insertion-ordered association list. -/
def Trie.children : Trie → List (Char × Trie)
  | .mk _ ch => ch

/-- Dict lookup `children[char]`. -/
def findChild : List (Char × Trie) → Char → Option Trie
  | [], _ => none
  | (d, t) :: rest, c => if d = c then some t else findChild rest c

/-- The update part of `children.setdefault(char, node)`: replace the value
at an existing key in place, or append the binding at the end (Python
dicts preserve insertion order). -/
def setChild : List (Char × Trie) → Char → Trie → List (Char × Trie)
  | [], c, t => [(c, t)]
  | (d, u) :: rest, c, t =>
    if d = c then (d, t) :: rest else (d, u) :: setChild rest c t

/-- A fresh `Node()`: no children, flag unset. -/
def Trie.empty : Trie := .mk false []

/-- `Trie.insert` after normalization: walk/create one child per
character, then set the final node's flag. -/
def Trie.insertRaw : Trie → List Char → Trie
  | .mk _ ch, [] => .mk true ch
  | .mk b ch, c :: cs =>
    .mk b (setChild ch c (Trie.insertRaw ((findChild ch c).getD Trie.empty) cs))

/-- `Trie.insert`: normalize, then walk/create the path. -/
def Trie.insert (t : Trie) (w : List Char) : Trie :=
  Trie.insertRaw t (preprocess w)

/-- Build a trie from a list of inserted words, starting from `Trie()`. -/
def buildTrie (ws : List (List Char)) : Trie :=
  ws.foldl Trie.insert Trie.empty

/-! ## The DP row (`Trie.get_levenshtein_dists`) -/

/-- Python `min` of a nonempty list. -/
def listMin : List Nat → Nat
  | [] => 0
  | a :: l => l.foldl min a

/-- Python `dists[-1]` on a nonempty list. -/
def rowLast (l : List Nat) : Nat := l.getLastD 0

/-- Entry `j` of the row computed by `get_levenshtein_dists` for a
non-root node: `d0` is `len(node.word)`, `c` is `node.word[-1]`, `prev`
the parent's row.  Entry 0 is `d0`; an entry inside the pruning window
`[max(0, d0-n-1), min(len(query), d0+n+1))` follows the Levenshtein
recurrence (reading the entry to its left, already final because each
index is written exactly once); entries outside stay at the sentinel
`n+1`. -/
def rowEntry (q : List Char) (c : Char) (d0 n : Nat) (prev : List Nat) : Nat → Nat
  | 0 => d0
  | j + 1 =>
    if d0 - (n + 1) ≤ j ∧ j < min q.length (d0 + n + 1) then
      if q.getD j ' ' = c then prev.getD j 0
      else 1 + min (prev.getD j 0) (min (prev.getD (j + 1) 0) (rowEntry q c d0 n prev j))
    else n + 1

/-- The full row `get_levenshtein_dists` returns for a non-root node. -/
def levRow (q : List Char) (c : Char) (d0 n : Nat) (prev : List Nat) : List Nat :=
  (List.range (q.length + 1)).map (rowEntry q c d0 n prev)

/-- The root row: `range(len(query) + 1)`. -/
def initRow (q : List Char) : List Nat := List.range (q.length + 1)

/-! ## The traversal (`Trie.fuzzySearch`)

The Python loop pops nodes from a work stack, computes each unvisited
node's row from its parent's row, collects the node's word when the
last entry is within the bound, and pushes the children when the row's
minimum is within the bound.  Each node is processed at most once and
strictly after its parent, so the loop computes the same result set as
the structural recursion below (the stack-machine form itself is
studied further down). -/

mutual

/-- Process the subtree rooted at a node sitting at prefix `pre` whose
own row is `row`: collect `pre` when the node is terminal and the last
entry is within `n`, and descend to the children when the row minimum
is within `n`. -/
def fuzzyGo (q : List Char) (n : Nat) : Trie → List Char → List Nat → Finset (List Char)
  | .mk isw ch, pre, row =>
    (if isw = true ∧ rowLast row ≤ n then {pre} else (∅ : Finset (List Char))) ∪
    (if listMin row ≤ n then fuzzyChildren q n ch pre row else ∅)

/-- Process each child of a node at prefix `pre` with row `row`. -/
def fuzzyChildren (q : List Char) (n : Nat) :
    List (Char × Trie) → List Char → List Nat → Finset (List Char)
  | [], _, _ => ∅
  | (c, t) :: rest, pre, row =>
    fuzzyGo q n t (pre ++ [c]) (levRow q c (pre.length + 1) n row) ∪
      fuzzyChildren q n rest pre row

end

/-- `Trie.fuzzySearch`: normalize the query, then run the traversal from
the root with the identity row. -/
def Trie.fuzzySearch (t : Trie) (q : List Char) (n : Nat) : Finset (List Char) :=
  fuzzyGo (preprocess q) n t [] (initRow (preprocess q))

/-! ## Terminal words of a trie -/

mutual

/-- All complete words stored in the subtree at prefix `pre`. -/
def wordsOf : Trie → List Char → Finset (List Char)
  | .mk isw ch, pre =>
    (if isw = true then {pre} else (∅ : Finset (List Char))) ∪ wordsChildren ch pre

/-- Words contributed by a children list. -/
def wordsChildren : List (Char × Trie) → List Char → Finset (List Char)
  | [], _ => ∅
  | (c, t) :: rest, pre => wordsOf t (pre ++ [c]) ∪ wordsChildren rest pre

end

/-- The set of terminal words of a trie. -/
def Trie.words (t : Trie) : Finset (List Char) := wordsOf t []

/-! ## Reference Levenshtein distance

The textbook recursion: unit-cost substitutions, insertions and
deletions.  This is the specification-side definition the searched-for
distance is compared against. -/

/-- Levenshtein edit distance between two strings (unit costs). -/
def levGo : List Char → List Char → Nat
  | [], b => b.length
  | _ :: as, [] => as.length + 1
  | a :: as, b :: bs =>
    if a = b then levGo as bs
    else 1 + min (levGo as bs) (min (levGo (a :: as) bs) (levGo as (b :: bs)))

/-! ## Basic facts about the reference distance -/

theorem levGo_nil_right (a : List Char) : levGo a [] = a.length := by
  cases a <;> simp [levGo]

theorem levGo_nil_left (b : List Char) : levGo [] b = b.length := by
  simp [levGo]

/-- Adjacent rows and columns of the Levenshtein table differ by at most
one: removing or adding one character to either argument changes the
distance by at most one. -/
theorem levGo_adj : ∀ m as bs, as.length + bs.length ≤ m →
    (∀ b, levGo as bs ≤ 1 + levGo as (b :: bs)) ∧
    (∀ a, levGo as bs ≤ 1 + levGo (a :: as) bs) ∧
    (∀ b, levGo as (b :: bs) ≤ 1 + levGo as bs) ∧
    (∀ a, levGo (a :: as) bs ≤ 1 + levGo as bs) := by
  intro m
  induction m with
  | zero =>
    intro as bs h
    have has : as = [] := by cases as <;> simp_all
    have hbs : bs = [] := by cases bs <;> simp_all
    subst has; subst hbs
    refine ⟨fun b => ?_, fun a => ?_, fun b => ?_, fun a => ?_⟩ <;> simp [levGo]
  | succ m ih =>
    intro as bs h
    refine ⟨fun b => ?_, fun a => ?_, fun b => ?_, fun a => ?_⟩
    · -- levGo as bs ≤ 1 + levGo as (b :: bs)
      cases as with
      | nil => simp [levGo] <;> omega
      | cons a as' =>
        by_cases hab : a = b
        · subst hab
          have hD := (ih as' bs (by simp at h ⊢; omega)).2.2.2 a
          simp [levGo] <;> omega
        · have h1 := (ih as' bs (by simp at h ⊢; omega)).2.2.2 a
          have h2 := (ih as' bs (by simp at h ⊢; omega)).1 b
          simp [levGo, hab] <;> omega
    · -- levGo as bs ≤ 1 + levGo (a :: as) bs
      cases bs with
      | nil => simp [levGo_nil_right, levGo] <;> omega
      | cons b bs' =>
        by_cases hab : a = b
        · subst hab
          have hC := (ih as bs' (by simp at h ⊢; omega)).2.2.1 a
          simp [levGo] <;> omega
        · have h1 := (ih as bs' (by simp at h ⊢; omega)).2.2.1 b
          have h2 := (ih as bs' (by simp at h ⊢; omega)).2.1 a
          simp [levGo, hab] <;> omega
    · -- levGo as (b :: bs) ≤ 1 + levGo as bs
      cases as with
      | nil => simp [levGo] <;> omega
      | cons a as' =>
        by_cases hab : a = b
        · subst hab
          have hB := (ih as' bs (by simp at h ⊢; omega)).2.1 a
          simp [levGo] <;> omega
        · simp [levGo, hab] <;> omega
    · -- levGo (a :: as) bs ≤ 1 + levGo as bs
      cases bs with
      | nil => simp [levGo_nil_right, levGo] <;> omega
      | cons b bs' =>
        by_cases hab : a = b
        · subst hab
          have hA := (ih as bs' (by simp at h ⊢; omega)).1 a
          simp [levGo] <;> omega
        · simp [levGo, hab] <;> omega

theorem levGo_le_cons_right (as bs : List Char) (b : Char) :
    levGo as bs ≤ 1 + levGo as (b :: bs) :=
  (levGo_adj (as.length + bs.length) as bs le_rfl).1 b

theorem levGo_le_cons_left (as bs : List Char) (a : Char) :
    levGo as bs ≤ 1 + levGo (a :: as) bs :=
  (levGo_adj (as.length + bs.length) as bs le_rfl).2.1 a

theorem levGo_cons_right_le (as bs : List Char) (b : Char) :
    levGo as (b :: bs) ≤ 1 + levGo as bs :=
  (levGo_adj (as.length + bs.length) as bs le_rfl).2.2.1 b

theorem levGo_cons_left_le (as bs : List Char) (a : Char) :
    levGo (a :: as) bs ≤ 1 + levGo as bs :=
  (levGo_adj (as.length + bs.length) as bs le_rfl).2.2.2 a

/-- The distance is at least the difference of the lengths. -/
theorem levGo_length : ∀ m as bs, as.length + bs.length ≤ m →
    as.length ≤ levGo as bs + bs.length ∧ bs.length ≤ levGo as bs + as.length := by
  intro m
  induction m with
  | zero =>
    intro as bs h
    have has : as = [] := by cases as <;> simp_all
    have hbs : bs = [] := by cases bs <;> simp_all
    subst has; subst hbs; simp [levGo]
  | succ m ih =>
    intro as bs h
    cases as with
    | nil => simp [levGo]
    | cons a as' =>
      cases bs with
      | nil => simp [levGo_nil_right]
      | cons b bs' =>
        by_cases hab : a = b
        · subst hab
          have h1 := ih as' bs' (by simp at h ⊢; omega)
          simp [levGo] <;> omega
        · have h1 := ih as' bs' (by simp at h ⊢; omega)
          have h2 := ih (a :: as') bs' (by simp at h ⊢; omega)
          have h3 := ih as' (b :: bs') (by simp at h ⊢; omega)
          simp [levGo, hab] at h1 h2 h3 ⊢ <;> omega

/-- The distance vanishes exactly on equal strings. -/
theorem levGo_eq_zero_iff : ∀ (a b : List Char), levGo a b = 0 ↔ a = b := by
  intro a
  induction a with
  | nil => intro b; cases b <;> simp [levGo]
  | cons a as ih =>
    intro b
    cases b with
    | nil => simp [levGo_nil_right]
    | cons b bs =>
      by_cases hab : a = b
      · subst hab; simp [levGo, ih]
      · simp [levGo, if_neg hab, hab]

/-! ## Facts about `listMin` (Python `min` over a list) -/

theorem foldl_min_le_init (l : List Nat) : ∀ a, l.foldl min a ≤ a := by
  induction l with
  | nil => intro a; simp
  | cons x l ih =>
    intro a
    have := ih (min a x)
    simp only [List.foldl_cons]
    omega

theorem foldl_min_le_mem (l : List Nat) : ∀ a x, x ∈ l → l.foldl min a ≤ x := by
  induction l with
  | nil => intro a x hx; simp at hx
  | cons y l ih =>
    intro a x hx
    rcases List.mem_cons.mp hx with h | h
    · subst h
      have := foldl_min_le_init l (min a x)
      simp only [List.foldl_cons]
      omega
    · exact ih (min a y) x h

theorem listMin_le_mem (l : List Nat) (x : Nat) (hx : x ∈ l) : listMin l ≤ x := by
  cases l with
  | nil => simp at hx
  | cons a l =>
    rcases List.mem_cons.mp hx with h | h
    · subst h; exact foldl_min_le_init l x
    · exact foldl_min_le_mem l a x h

theorem foldl_min_mem (l : List Nat) : ∀ a, l.foldl min a = a ∨ l.foldl min a ∈ l := by
  induction l with
  | nil => intro a; simp
  | cons x l ih =>
    intro a
    rcases ih (min a x) with h | h
    · simp only [List.foldl_cons]
      rcases Nat.le_total a x with hax | hax
      · left; rw [h, min_eq_left hax]
      · right; rw [h, min_eq_right hax]; exact List.mem_cons_self x l
    · right
      simpa using Or.inr h

theorem listMin_mem (l : List Nat) (hl : l ≠ []) : listMin l ∈ l := by
  cases l with
  | nil => simp at hl
  | cons a l =>
    rcases foldl_min_mem l a with h | h
    · rw [listMin, h]; exact List.mem_cons_self a l
    · exact List.mem_cons_of_mem a h

/-! ## Edit scripts

An alignment-style characterization of the edit distance, used to prove
reversal invariance of the distance and the prefix-splitting bound that
justifies the traversal's pruning decision. -/

/-- A script of exactly `k` unit-cost edit operations (character copies
are free; substitutions, deletions and insertions cost one) turning the
first string into the second. -/
inductive Ed : List Char → List Char → Nat → Prop where
  | nil : Ed [] [] 0
  | copy (c : Char) (as bs : List Char) (k : Nat) : Ed as bs k → Ed (c :: as) (c :: bs) k
  | subst (c d : Char) (as bs : List Char) (k : Nat) : Ed as bs k → Ed (c :: as) (d :: bs) (k + 1)
  | del (c : Char) (as bs : List Char) (k : Nat) : Ed as bs k → Ed (c :: as) bs (k + 1)
  | ins (d : Char) (as bs : List Char) (k : Nat) : Ed as bs k → Ed as (d :: bs) (k + 1)

theorem ed_nil_left (b : List Char) : Ed [] b b.length := by
  induction b with
  | nil => exact Ed.nil
  | cons d bs ih => exact Ed.ins d [] bs bs.length ih

theorem ed_nil_right (a : List Char) : Ed a [] a.length := by
  induction a with
  | nil => exact Ed.nil
  | cons c as ih => exact Ed.del c as [] as.length ih

/-- The distance is realized by some script. -/
theorem ed_levGo : ∀ m a b, a.length + b.length ≤ m → Ed a b (levGo a b) := by
  intro m
  induction m with
  | zero =>
    intro a b h
    have ha : a = [] := by cases a <;> simp_all
    have hb : b = [] := by cases b <;> simp_all
    subst ha; subst hb
    rw [levGo_nil_left]
    exact Ed.nil
  | succ m ih =>
    intro a b h
    cases a with
    | nil => rw [levGo_nil_left]; exact ed_nil_left b
    | cons c as =>
      cases b with
      | nil => rw [levGo_nil_right]; exact ed_nil_right (c :: as)
      | cons d bs =>
        by_cases hcd : c = d
        · subst hcd
          rw [show levGo (c :: as) (c :: bs) = levGo as bs from by simp [levGo]]
          exact Ed.copy c as bs _ (ih as bs (by simp at h ⊢; omega))
        · have e1 := ih as bs (by simp at h ⊢; omega)
          have e2 := ih (c :: as) bs (by simp at h ⊢; omega)
          have e3 := ih as (d :: bs) (by simp at h ⊢; omega)
          have hlev : levGo (c :: as) (d :: bs) =
              1 + min (levGo as bs) (min (levGo (c :: as) bs) (levGo as (d :: bs))) := by
            simp [levGo, hcd]
          rcases le_total (levGo as bs) (min (levGo (c :: as) bs) (levGo as (d :: bs))) with h1 | h1
          · rw [hlev, show 1 + min (levGo as bs) (min (levGo (c :: as) bs) (levGo as (d :: bs))) =
                levGo as bs + 1 from by omega]
            exact Ed.subst c d as bs _ e1
          · rcases le_total (levGo (c :: as) bs) (levGo as (d :: bs)) with h2 | h2
            · rw [hlev, show 1 + min (levGo as bs) (min (levGo (c :: as) bs) (levGo as (d :: bs))) =
                  levGo (c :: as) bs + 1 from by omega]
              exact Ed.ins d (c :: as) bs _ e2
            · rw [hlev, show 1 + min (levGo as bs) (min (levGo (c :: as) bs) (levGo as (d :: bs))) =
                  levGo as (d :: bs) + 1 from by omega]
              exact Ed.del c as (d :: bs) _ e3

/-- The distance is minimal among script costs. -/
theorem levGo_le_ed : ∀ {a b k}, Ed a b k → levGo a b ≤ k := by
  intro a b k h
  induction h with
  | nil => simp [levGo]
  | copy c as bs k _ ih => simpa [levGo] using ih
  | subst c d as bs k _ ih =>
    by_cases hcd : c = d
    · subst hcd; simp [levGo] <;> omega
    · simp [levGo, hcd] <;> omega
  | del c as bs k _ ih =>
    have := levGo_cons_left_le as bs c
    omega
  | ins d as bs k _ ih =>
    have := levGo_cons_right_le as bs d
    omega

theorem ed_append_copy : ∀ {a b k}, Ed a b k → ∀ c, Ed (a ++ [c]) (b ++ [c]) k := by
  intro a b k h
  induction h with
  | nil => intro c; exact Ed.copy c [] [] 0 Ed.nil
  | copy c' as bs k _ ih => intro c; exact Ed.copy c' _ _ _ (ih c)
  | subst c' d' as bs k _ ih => intro c; exact Ed.subst c' d' _ _ _ (ih c)
  | del c' as bs k _ ih => intro c; exact Ed.del c' _ _ _ (ih c)
  | ins d' as bs k _ ih => intro c; exact Ed.ins d' _ _ _ (ih c)

theorem ed_append_subst : ∀ {a b k}, Ed a b k → ∀ c d, Ed (a ++ [c]) (b ++ [d]) (k + 1) := by
  intro a b k h
  induction h with
  | nil => intro c d; exact Ed.subst c d [] [] 0 Ed.nil
  | copy c' as bs k _ ih => intro c d; exact Ed.copy c' _ _ _ (ih c d)
  | subst c' d' as bs k _ ih => intro c d; exact Ed.subst c' d' _ _ _ (ih c d)
  | del c' as bs k _ ih => intro c d; exact Ed.del c' _ _ _ (ih c d)
  | ins d' as bs k _ ih => intro c d; exact Ed.ins d' _ _ _ (ih c d)

theorem ed_append_del : ∀ {a b k}, Ed a b k → ∀ c, Ed (a ++ [c]) b (k + 1) := by
  intro a b k h
  induction h with
  | nil => intro c; exact Ed.del c [] [] 0 Ed.nil
  | copy c' as bs k _ ih => intro c; exact Ed.copy c' _ _ _ (ih c)
  | subst c' d' as bs k _ ih => intro c; exact Ed.subst c' d' _ _ _ (ih c)
  | del c' as bs k _ ih => intro c; exact Ed.del c' _ _ _ (ih c)
  | ins d' as bs k _ ih => intro c; exact Ed.ins d' _ _ _ (ih c)

theorem ed_append_ins : ∀ {a b k}, Ed a b k → ∀ d, Ed a (b ++ [d]) (k + 1) := by
  intro a b k h
  induction h with
  | nil => intro d; exact Ed.ins d [] [] 0 Ed.nil
  | copy c' as bs k _ ih => intro d; exact Ed.copy c' _ _ _ (ih d)
  | subst c' d' as bs k _ ih => intro d; exact Ed.subst c' d' _ _ _ (ih d)
  | del c' as bs k _ ih => intro d; exact Ed.del c' _ _ _ (ih d)
  | ins d' as bs k _ ih => intro d; exact Ed.ins d' _ _ _ (ih d)

/-- Scripts reverse. -/
theorem ed_reverse : ∀ {a b k}, Ed a b k → Ed a.reverse b.reverse k := by
  intro a b k h
  induction h with
  | nil => exact Ed.nil
  | copy c as bs k _ ih => simpa [List.reverse_cons] using ed_append_copy ih c
  | subst c d as bs k _ ih => simpa [List.reverse_cons] using ed_append_subst ih c d
  | del c as bs k _ ih => simpa [List.reverse_cons] using ed_append_del ih c
  | ins d as bs k _ ih => simpa [List.reverse_cons] using ed_append_ins ih d

/-- The Levenshtein distance is invariant under reversing both strings. -/
theorem levGo_reverse (a b : List Char) : levGo a.reverse b.reverse = levGo a b := by
  apply le_antisymm
  · exact levGo_le_ed (ed_reverse (ed_levGo _ a b le_rfl))
  · have := levGo_le_ed (ed_reverse (ed_levGo _ a.reverse b.reverse le_rfl))
    simpa using this

/-- `levGo` is the Levenshtein distance in the glossary's sense: it is
realized by an edit script, and no script costs less. -/
theorem levGo_spec (a b : List Char) :
    Ed a b (levGo a b) ∧ ∀ k, Ed a b k → levGo a b ≤ k :=
  ⟨ed_levGo (a.length + b.length) a b le_rfl, fun _ h => levGo_le_ed h⟩

/-- A script from a concatenation splits into scripts for the parts. -/
theorem ed_split : ∀ {s t k}, Ed s t k → ∀ u v, s = u ++ v →
    ∃ t1 t2 k1 k2, t = t1 ++ t2 ∧ k = k1 + k2 ∧ Ed u t1 k1 ∧ Ed v t2 k2 := by
  intro s t k h
  induction h with
  | nil =>
    intro u v huv
    have hu : u = [] ∧ v = [] := by
      constructor <;> (cases u <;> simp_all)
    obtain ⟨hu1, hu2⟩ := hu
    subst hu1; subst hu2
    exact ⟨[], [], 0, 0, rfl, rfl, Ed.nil, Ed.nil⟩
  | copy c as bs k hsub ih =>
    intro u v huv
    cases u with
    | nil =>
      refine ⟨[], c :: bs, 0, k, rfl, by omega, Ed.nil, ?_⟩
      simp only [List.nil_append] at huv
      rw [← huv]
      exact Ed.copy c as bs k hsub
    | cons x u' =>
      simp only [List.cons_append] at huv
      injection huv with h1 h2
      obtain ⟨t1, t2, k1, k2, ht, hk, e1, e2⟩ := ih u' v h2
      subst h1
      exact ⟨c :: t1, t2, k1, k2, by rw [ht]; rfl, hk, Ed.copy c u' t1 k1 e1, e2⟩
  | subst c d as bs k hsub ih =>
    intro u v huv
    cases u with
    | nil =>
      refine ⟨[], d :: bs, 0, k + 1, rfl, by omega, Ed.nil, ?_⟩
      simp only [List.nil_append] at huv
      rw [← huv]
      exact Ed.subst c d as bs k hsub
    | cons x u' =>
      simp only [List.cons_append] at huv
      injection huv with h1 h2
      obtain ⟨t1, t2, k1, k2, ht, hk, e1, e2⟩ := ih u' v h2
      subst h1
      exact ⟨d :: t1, t2, k1 + 1, k2, by rw [ht]; rfl, by omega,
        Ed.subst c d u' t1 k1 e1, e2⟩
  | del c as bs k hsub ih =>
    intro u v huv
    cases u with
    | nil =>
      refine ⟨[], bs, 0, k + 1, rfl, by omega, Ed.nil, ?_⟩
      simp only [List.nil_append] at huv
      rw [← huv]
      exact Ed.del c as bs k hsub
    | cons x u' =>
      simp only [List.cons_append] at huv
      injection huv with h1 h2
      obtain ⟨t1, t2, k1, k2, ht, hk, e1, e2⟩ := ih u' v h2
      subst h1
      exact ⟨t1, t2, k1 + 1, k2, ht, by omega, Ed.del c u' t1 k1 e1, e2⟩
  | ins d as bs k hsub ih =>
    intro u v huv
    obtain ⟨t1, t2, k1, k2, ht, hk, e1, e2⟩ := ih u v huv
    exact ⟨d :: t1, t2, k1 + 1, k2, by rw [ht]; rfl, by omega, Ed.ins d u t1 k1 e1, e2⟩

/-! ## Row validity

`trueD q w j` is the true edit distance between the node prefix `w` and
the query prefix of length `j`, oriented so that the trie's step --
appending one character to the prefix -- becomes a head step of the
`levGo` recursion on the reversed strings.  A computed row is valid when
each entry agrees with the corresponding true distance up to the
sentinel cap `n + 1`. -/

/-- Edit distance between the node prefix and a query prefix. -/
def trueD (q w : List Char) (j : Nat) : Nat := levGo w.reverse (q.take j).reverse

/-- The row stored for the node at prefix `w` is correct below the
sentinel: it has one entry per query prefix, and entry `j` agrees with
`trueD q w j` after capping both at `n + 1`. -/
def ValidRow (q : List Char) (n : Nat) (w : List Char) (row : List Nat) : Prop :=
  row.length = q.length + 1 ∧
    ∀ j, j ≤ q.length → min (row.getD j 0) (n + 1) = min (trueD q w j) (n + 1)

theorem trueD_zero (q w : List Char) : trueD q w 0 = w.length := by
  simp [trueD, levGo_nil_right]

theorem trueD_full (q w : List Char) : trueD q w q.length = levGo w q := by
  simp [trueD, List.take_length, levGo_reverse]

theorem trueD_ge (q w : List Char) (j : Nat) (hj : j ≤ q.length) :
    w.length ≤ trueD q w j + j ∧ j ≤ trueD q w j + w.length := by
  have h := levGo_length (w.reverse.length + (q.take j).reverse.length)
    w.reverse (q.take j).reverse le_rfl
  simpa [trueD, List.length_take, Nat.min_eq_left hj] using h

theorem validRow_init (q : List Char) (n : Nat) : ValidRow q n [] (initRow q) := by
  constructor
  · simp [initRow]
  · intro j hj
    have h1 : (initRow q).getD j 0 = j := by
      simp [initRow, List.getD_eq_getElem?_getD, List.getElem?_range, Nat.lt_succ_of_le hj]
    have h2 : trueD q [] j = j := by
      simp [trueD, levGo_nil_left, List.length_take, Nat.min_eq_left hj]
    rw [h1, h2]

theorem levRow_length (q : List Char) (c : Char) (d0 n : Nat) (prev : List Nat) :
    (levRow q c d0 n prev).length = q.length + 1 := by
  simp [levRow]

theorem levRow_getD (q : List Char) (c : Char) (d0 n : Nat) (prev : List Nat)
    (j : Nat) (hj : j ≤ q.length) :
    (levRow q c d0 n prev).getD j 0 = rowEntry q c d0 n prev j := by
  have hlt : j < ((List.range (q.length + 1)).map (rowEntry q c d0 n prev)).length := by
    simp; omega
  rw [levRow, List.getD_eq_getElem _ 0 hlt, List.getElem_map, List.getElem_range]

/-- The one-character recurrence of the true distance, in the exact shape
of the code's row recurrence. -/
theorem trueD_succ_eq (q w : List Char) (c : Char) (j : Nat) (hj : j < q.length) :
    trueD q (w ++ [c]) (j + 1) =
      if q.getD j ' ' = c then trueD q w j
      else 1 + min (trueD q w j) (min (trueD q (w ++ [c]) j) (trueD q w (j + 1))) := by
  have htake : q.take (j + 1) = q.take j ++ [q[j]] := (List.take_concat_get' q j hj).symm
  have hgetD : q.getD j ' ' = q[j] := List.getD_eq_getElem q ' ' hj
  have hrev1 : (w ++ [c]).reverse = c :: w.reverse := by simp
  have hrev2 : (q.take (j + 1)).reverse = q[j] :: (q.take j).reverse := by
    rw [htake]; simp
  by_cases hqc : q.getD j ' ' = c
  · rw [if_pos hqc]
    rw [hgetD] at hqc
    show levGo (w ++ [c]).reverse (q.take (j + 1)).reverse = _
    rw [hrev1, hrev2,
      show levGo (c :: w.reverse) (q[j] :: (q.take j).reverse) =
          levGo w.reverse (q.take j).reverse from by simp [levGo, hqc.symm]]
    rfl
  · rw [if_neg hqc]
    rw [hgetD] at hqc
    show levGo (w ++ [c]).reverse (q.take (j + 1)).reverse = _
    rw [hrev1, hrev2]
    have hne : ¬(c = q[j]) := fun hx => hqc hx.symm
    rw [show levGo (c :: w.reverse) (q[j] :: (q.take j).reverse) =
        1 + min (levGo w.reverse (q.take j).reverse)
          (min (levGo (c :: w.reverse) (q.take j).reverse)
            (levGo w.reverse (q[j] :: (q.take j).reverse))) from by simp [levGo, hne]]
    have e1 : levGo (c :: w.reverse) (q.take j).reverse = trueD q (w ++ [c]) j := by
      rw [trueD, hrev1]
    have e2 : levGo w.reverse (q[j] :: (q.take j).reverse) = trueD q w (j + 1) := by
      rw [trueD, hrev2]
    rw [e1, e2]
    rfl

/-- Entries of the computed row are valid, by strong recurrence on the
entry index (entry `j+1` reads entry `j` of the same row). -/
theorem rowEntry_valid (q : List Char) (n : Nat) (w : List Char) (c : Char) (row : List Nat)
    (hv : ValidRow q n w row) :
    ∀ j, j ≤ q.length →
      min (rowEntry q c (w.length + 1) n row j) (n + 1) =
        min (trueD q (w ++ [c]) j) (n + 1) := by
  intro j
  induction j with
  | zero =>
    intro _
    have h0 : trueD q (w ++ [c]) 0 = w.length + 1 := by simp [trueD_zero]
    have h1 : rowEntry q c (w.length + 1) n row 0 = w.length + 1 := by simp [rowEntry]
    rw [h0, h1]
  | succ j ihj =>
    intro hj1
    have hjq : j < q.length := hj1
    by_cases hwin : (w.length + 1) - (n + 1) ≤ j ∧ j < min q.length (w.length + 1 + n + 1)
    · have hre : rowEntry q c (w.length + 1) n row (j + 1) =
          if q.getD j ' ' = c then row.getD j 0
          else 1 + min (row.getD j 0)
            (min (row.getD (j + 1) 0) (rowEntry q c (w.length + 1) n row j)) := by
        conv_lhs => rw [rowEntry]
        rw [if_pos hwin]
      rw [hre, trueD_succ_eq q w c j hjq]
      by_cases hqc : q.getD j ' ' = c
      · rw [if_pos hqc, if_pos hqc]
        exact hv.2 j (le_of_lt hjq)
      · rw [if_neg hqc, if_neg hqc]
        have h1 := hv.2 j (le_of_lt hjq)
        have h2 := hv.2 (j + 1) hj1
        have h3 := ihj (le_of_lt hjq)
        omega
    · have hre : rowEntry q c (w.length + 1) n row (j + 1) = n + 1 := by
        conv_lhs => rw [rowEntry]
        rw [if_neg hwin]
      rw [hre]
      have hge := trueD_ge q (w ++ [c]) (j + 1) hj1
      simp only [List.length_append, List.length_cons, List.length_nil] at hge
      omega

/-- Validity is preserved when stepping from a node to its child. -/
theorem validRow_step (q : List Char) (n : Nat) (w : List Char) (c : Char) (row : List Nat)
    (hv : ValidRow q n w row) :
    ValidRow q n (w ++ [c]) (levRow q c (w.length + 1) n row) := by
  constructor
  · exact levRow_length q c (w.length + 1) n row
  · intro j hj
    rw [levRow_getD q c (w.length + 1) n row j hj]
    exact rowEntry_valid q n w c row hv j hj

/-- The expansion test of the code reads the true distances: the row
minimum is within the bound exactly when some query prefix is close to
the node prefix. -/
theorem valid_listMin_iff (q : List Char) (n : Nat) (w : List Char) (row : List Nat)
    (hv : ValidRow q n w row) :
    listMin row ≤ n ↔ ∃ j, j ≤ q.length ∧ trueD q w j ≤ n := by
  constructor
  · intro h
    have hne : row ≠ [] := by
      intro hx
      have hlen := hv.1
      rw [hx] at hlen
      simp at hlen
    obtain ⟨i, hi, hig⟩ := List.mem_iff_getElem.mp (listMin_mem row hne)
    have hiq : i ≤ q.length := by
      have hlen := hv.1
      omega
    have hcap := hv.2 i hiq
    rw [List.getD_eq_getElem row 0 hi, hig] at hcap
    exact ⟨i, hiq, by omega⟩
  · rintro ⟨j, hj, hkd⟩
    have hcap := hv.2 j hj
    have hlt : j < row.length := by
      have hlen := hv.1
      omega
    have hmem : row.getD j 0 ∈ row := by
      rw [List.getD_eq_getElem row 0 hlt]
      exact List.getElem_mem hlt
    have hle := listMin_le_mem row _ hmem
    omega

/-- The match test of the code reads the true full distance. -/
theorem valid_rowLast_iff (q : List Char) (n : Nat) (w : List Char) (row : List Nat)
    (hv : ValidRow q n w row) :
    rowLast row ≤ n ↔ levGo w q ≤ n := by
  have hL : rowLast row = row.getD q.length 0 := by
    rw [rowLast, List.getLastD_eq_getLast?, List.getLast?_eq_getElem?,
      List.getD_eq_getElem?_getD, hv.1]
    simp
  have hcap := hv.2 q.length le_rfl
  rw [trueD_full] at hcap
  omega

/-- Any word extending the prefix `w` is at least as far from the query
as the closest query prefix is from `w`: the pruning bound. -/
theorem trueD_extension (q w s : List Char) :
    ∃ j, j ≤ q.length ∧ trueD q w j ≤ levGo (w ++ s) q := by
  have hed : Ed (w ++ s).reverse q.reverse (levGo (w ++ s).reverse q.reverse) :=
    ed_levGo _ _ _ le_rfl
  obtain ⟨t1, t2, k1, k2, ht, hk, e1, e2⟩ := ed_split hed s.reverse w.reverse (by simp)
  refine ⟨q.length - t1.length, Nat.sub_le _ _, ?_⟩
  have ht2 : t2 = (q.take (q.length - t1.length)).reverse := by
    have hdrop : t2 = q.reverse.drop t1.length := by
      rw [ht, List.drop_left]
    rw [hdrop, List.drop_reverse]
  have hle : levGo w.reverse t2 ≤ k2 := levGo_le_ed e2
  rw [ht2] at hle
  have hrev : levGo (w ++ s).reverse q.reverse = levGo (w ++ s) q := levGo_reverse _ _
  unfold trueD
  omega

/-! ## Main traversal correctness -/

theorem sizeOf_child_lt (isw : Bool) (ch : List (Char × Trie)) (c : Char) (u : Trie)
    (h : (c, u) ∈ ch) : sizeOf u < sizeOf (Trie.mk isw ch) := by
  have h1 := List.sizeOf_lt_of_mem h
  have h2 : sizeOf (c, u) = 1 + sizeOf c + sizeOf u := rfl
  simp only [Trie.mk.sizeOf_spec]
  omega

theorem sizeOf_children_lt (isw : Bool) (ch : List (Char × Trie)) :
    sizeOf ch < sizeOf (Trie.mk isw ch) := by
  simp only [Trie.mk.sizeOf_spec]
  cases isw <;> simp <;> omega

/-- Every word collected under a prefix extends that prefix (and a word
collected from a children list extends it properly). -/
theorem wordsOf_extends : ∀ N,
    (∀ t : Trie, sizeOf t ≤ N → ∀ pre W, W ∈ wordsOf t pre → ∃ s, W = pre ++ s) ∧
    (∀ ch : List (Char × Trie), sizeOf ch ≤ N →
      ∀ pre W, W ∈ wordsChildren ch pre → ∃ c s, W = pre ++ c :: s) := by
  intro N
  induction N using Nat.strong_induction_on with
  | _ N ih =>
    constructor
    · intro t ht pre W hW
      cases t with
      | mk isw ch =>
        rw [wordsOf] at hW
        rcases Finset.mem_union.mp hW with h | h
        · by_cases hb : isw = true
          · rw [if_pos hb] at h
            exact ⟨[], by simpa using Finset.mem_singleton.mp h⟩
          · rw [if_neg hb] at h
            simp at h
        · have hlt : sizeOf ch < sizeOf (Trie.mk isw ch) := sizeOf_children_lt isw ch
          obtain ⟨c, s, hs⟩ := (ih (sizeOf ch) (by omega)).2 ch le_rfl pre W h
          exact ⟨c :: s, hs⟩
    · intro ch hch pre W hW
      cases ch with
      | nil =>
        rw [wordsChildren] at hW
        simp at hW
      | cons p rest =>
        obtain ⟨c, u⟩ := p
        rw [wordsChildren] at hW
        rcases Finset.mem_union.mp hW with h | h
        · have hlt : sizeOf u < sizeOf ((c, u) :: rest) := by
            have := List.sizeOf_lt_of_mem (List.mem_cons_self (c, u) rest)
            have h2 : sizeOf (c, u) = 1 + sizeOf c + sizeOf u := rfl
            omega
          obtain ⟨s, hs⟩ := (ih (sizeOf u) (by omega)).1 u le_rfl (pre ++ [c]) W h
          exact ⟨c, s, by rw [hs]; simp⟩
        · have hlt : sizeOf rest < sizeOf ((c, u) :: rest) := by
            simp only [List.cons.sizeOf_spec]; omega
          exact (ih (sizeOf rest) (by omega)).2 rest le_rfl pre W h

/-- Oracle equivalence of the traversal, one subtree at a time: with a
valid row at the current node, the traversal of the subtree returns
exactly its terminal words within distance `n` of the query. -/
theorem fuzzyGo_main : ∀ N,
    (∀ t : Trie, sizeOf t ≤ N → ∀ (q : List Char) (n : Nat) pre row,
      ValidRow q n pre row →
      ∀ W, W ∈ fuzzyGo q n t pre row ↔ W ∈ wordsOf t pre ∧ levGo W q ≤ n) ∧
    (∀ ch : List (Char × Trie), sizeOf ch ≤ N → ∀ (q : List Char) (n : Nat) pre row,
      ValidRow q n pre row →
      ∀ W, W ∈ fuzzyChildren q n ch pre row ↔ W ∈ wordsChildren ch pre ∧ levGo W q ≤ n) := by
  intro N
  induction N using Nat.strong_induction_on with
  | _ N ih =>
    constructor
    · intro t ht q n pre row hv W
      cases t with
      | mk isw ch =>
        rw [fuzzyGo, wordsOf]
        have hbase : W ∈ (if isw = true ∧ rowLast row ≤ n then {pre}
            else (∅ : Finset (List Char))) ↔ isw = true ∧ W = pre ∧ levGo W q ≤ n := by
          by_cases hb : isw = true ∧ rowLast row ≤ n
          · rw [if_pos hb]
            simp only [Finset.mem_singleton]
            constructor
            · intro hW
              subst hW
              exact ⟨hb.1, rfl, (valid_rowLast_iff q n W row hv).mp hb.2⟩
            · intro hW
              exact hW.2.1
          · rw [if_neg hb]
            simp only [Finset.not_mem_empty, false_iff]
            intro hW
            obtain ⟨h1, h2, h3⟩ := hW
            subst h2
            exact hb ⟨h1, (valid_rowLast_iff q n W row hv).mpr h3⟩
        by_cases hmin : listMin row ≤ n
        · rw [if_pos hmin]
          have hch := (ih (sizeOf ch) (by
              have := sizeOf_children_lt isw ch
              omega)).2 ch le_rfl q n pre row hv W
          simp only [Finset.mem_union, hbase, hch]
          constructor
          · rintro (⟨h1, h2, h3⟩ | ⟨h1, h2⟩)
            · exact ⟨Or.inl (by rw [if_pos h1]; simp [h2]), h3⟩
            · exact ⟨Or.inr h1, h2⟩
          · rintro ⟨h1, h2⟩
            rcases h1 with h | h
            · by_cases hb : isw = true
              · rw [if_pos hb] at h
                exact Or.inl ⟨hb, Finset.mem_singleton.mp h, h2⟩
              · rw [if_neg hb] at h
                simp at h
            · exact Or.inr ⟨h, h2⟩
        · rw [if_neg hmin]
          have hnone : ∀ j, j ≤ q.length → ¬ trueD q pre j ≤ n := by
            intro j hj hle
            exact hmin ((valid_listMin_iff q n pre row hv).mpr ⟨j, hj, hle⟩)
          simp only [Finset.union_empty, hbase]
          constructor
          · rintro ⟨h1, h2, h3⟩
            subst h2
            have := hnone q.length le_rfl
            rw [trueD_full] at this
            exact absurd h3 this
          · rintro ⟨h1, h2⟩
            exfalso
            rcases Finset.mem_union.mp h1 with h | h
            · by_cases hb : isw = true
              · rw [if_pos hb] at h
                have hW := Finset.mem_singleton.mp h
                subst hW
                have := hnone q.length le_rfl
                rw [trueD_full] at this
                exact this h2
              · rw [if_neg hb] at h
                simp at h
            · obtain ⟨c, s, hs⟩ :=
                (wordsOf_extends (sizeOf ch)).2 ch le_rfl pre W h
              subst hs
              obtain ⟨j, hj, hle⟩ := trueD_extension q pre (c :: s)
              exact hnone j hj (le_trans hle h2)
    · intro ch hch q n pre row hv W
      cases ch with
      | nil =>
        rw [fuzzyChildren, wordsChildren]
        simp
      | cons p rest =>
        obtain ⟨c, u⟩ := p
        rw [fuzzyChildren, wordsChildren]
        have hstep := validRow_step q n pre c row hv
        have hu : sizeOf u < sizeOf ((c, u) :: rest) := by
          have := List.sizeOf_lt_of_mem (List.mem_cons_self (c, u) rest)
          have h2 : sizeOf (c, u) = 1 + sizeOf c + sizeOf u := rfl
          omega
        have h1 := (ih (sizeOf u) (by omega)).1 u le_rfl q n (pre ++ [c])
          (levRow q c (pre.length + 1) n row) hstep W
        have hrest : sizeOf rest < sizeOf ((c, u) :: rest) := by
          simp only [List.cons.sizeOf_spec]; omega
        have h2 := (ih (sizeOf rest) (by omega)).2 rest le_rfl q n pre row hv W
        simp only [Finset.mem_union, h1, h2]
        tauto

/-- The incremental windowed-DP traversal equals a brute-force filter of
all terminal words by true edit distance. -/
theorem fuzzySearch_eq_filter (t : Trie) (q : List Char) (n : Nat) :
    t.fuzzySearch q n = t.words.filter (fun W => levGo W (preprocess q) ≤ n) := by
  apply Finset.ext
  intro W
  rw [Trie.fuzzySearch, Trie.words, Finset.mem_filter]
  exact (fuzzyGo_main (sizeOf t)).1 t le_rfl (preprocess q) n [] (initRow (preprocess q))
    (validRow_init _ _) W

/-! ## Words of built tries -/

theorem wordsOf_empty (pre : List Char) : wordsOf Trie.empty pre = ∅ := by
  rw [Trie.empty, wordsOf, wordsChildren]
  simp

theorem mem_words_insertRaw : ∀ (v : List Char) (t : Trie) (pre W : List Char),
    W ∈ wordsOf (Trie.insertRaw t v) pre ↔ W = pre ++ v ∨ W ∈ wordsOf t pre := by
  intro v
  induction v with
  | nil =>
    intro t pre W
    cases t with
    | mk b ch =>
      rw [Trie.insertRaw, wordsOf, wordsOf]
      cases b <;> simp
  | cons c cs ih =>
    intro t pre W
    cases t with
    | mk b ch =>
      rw [Trie.insertRaw, wordsOf, wordsOf]
      have hc : ∀ ch' : List (Char × Trie),
          W ∈ wordsChildren
              (setChild ch' c (Trie.insertRaw ((findChild ch' c).getD Trie.empty) cs)) pre
            ↔ W = pre ++ c :: cs ∨ W ∈ wordsChildren ch' pre := by
        intro ch'
        induction ch' with
        | nil =>
          simp only [findChild, setChild, Option.getD_none, wordsChildren]
          rw [show pre ++ c :: cs = (pre ++ [c]) ++ cs from by simp]
          simp [ih Trie.empty (pre ++ [c]) W, wordsOf_empty]
        | cons p rest ihr =>
          obtain ⟨d, u⟩ := p
          by_cases hdc : d = c
          · subst hdc
            have hfind : findChild ((d, u) :: rest) d = some u := by
              simp [findChild]
            have hset : setChild ((d, u) :: rest) d (Trie.insertRaw u cs) =
                (d, Trie.insertRaw u cs) :: rest := by
              simp [setChild]
            rw [hfind, Option.getD_some, hset]
            simp only [wordsChildren, Finset.mem_union, ih u (pre ++ [d]) W]
            rw [show pre ++ d :: cs = (pre ++ [d]) ++ cs from by simp]
            tauto
          · simp only [findChild, if_neg hdc, setChild, wordsChildren]
            simp only [Finset.mem_union, ihr]
            tauto
      simp only [Finset.mem_union, hc ch]
      tauto

theorem mem_words_insert (t : Trie) (w W : List Char) :
    W ∈ (t.insert w).words ↔ W = preprocess w ∨ W ∈ t.words := by
  rw [Trie.insert, Trie.words, Trie.words, mem_words_insertRaw]
  simp

theorem mem_words_buildTrie (ws : List (List Char)) (W : List Char) :
    W ∈ (buildTrie ws).words ↔ W ∈ ws.map preprocess := by
  have main : ∀ (ws' : List (List Char)) (t : Trie),
      W ∈ (ws'.foldl Trie.insert t).words ↔ W ∈ ws'.map preprocess ∨ W ∈ t.words := by
    intro ws'
    induction ws' with
    | nil => intro t; simp
    | cons w rest ihw =>
      intro t
      rw [List.foldl_cons, ihw, List.map_cons, mem_words_insert]
      simp only [List.mem_cons]
      tauto
  rw [buildTrie, main]
  have hempty : W ∈ Trie.empty.words ↔ False := by
    rw [Trie.words, wordsOf_empty]
    simp
  tauto

/-- Claim C1: on a trie built by any sequence of `insert` calls, for
every query and every bound `n`, `fuzzySearch` returns exactly the set
of inserted (normalized) words whose Levenshtein edit distance to the
normalized query is at most `n`: the incremental windowed-DP traversal
equals a brute-force filter over all terminal words. -/
theorem spec_C1 (ws : List (List Char)) (q : List Char) (n : Nat) :
    Trie.fuzzySearch (buildTrie ws) q n =
      ((ws.map preprocess).toFinset).filter (fun w => levGo w (preprocess q) ≤ n) := by
  rw [fuzzySearch_eq_filter]
  apply Finset.ext
  intro W
  simp only [Finset.mem_filter, List.mem_toFinset, mem_words_buildTrie]

/-- Claim C3: for a fixed query, the result set of `fuzzySearch` grows
monotonically with the distance bound. -/
theorem spec_C3 (t : Trie) (q : List Char) (n : Nat) :
    t.fuzzySearch q n ⊆ t.fuzzySearch q (n + 1) := by
  rw [fuzzySearch_eq_filter, fuzzySearch_eq_filter]
  intro W hW
  simp only [Finset.mem_filter] at hW ⊢
  exact ⟨hW.1, by omega⟩

/-- Claim C4: at `maxDistance = 0` the search degenerates to exact
lookup of the normalized query. -/
theorem spec_C4 (t : Trie) (w : List Char) :
    (preprocess w ∈ t.words → t.fuzzySearch w 0 = {preprocess w}) ∧
    (preprocess w ∉ t.words → t.fuzzySearch w 0 = ∅) := by
  constructor
  · intro hmem
    rw [fuzzySearch_eq_filter]
    apply Finset.ext
    intro W
    simp only [Finset.mem_filter, Finset.mem_singleton, Nat.le_zero]
    constructor
    · rintro ⟨h1, h2⟩
      exact (levGo_eq_zero_iff W (preprocess w)).mp h2
    · intro h
      subst h
      exact ⟨hmem, (levGo_eq_zero_iff _ _).mpr rfl⟩
  · intro hmem
    rw [fuzzySearch_eq_filter]
    rw [Finset.eq_empty_iff_forall_not_mem]
    intro W
    simp only [Finset.mem_filter, Nat.le_zero]
    rintro ⟨h1, h2⟩
    have hWw := (levGo_eq_zero_iff W (preprocess w)).mp h2
    subst hWw
    exact hmem h1

theorem spec_C4_witness :
    Trie.fuzzySearch (buildTrie [['a', 'b']]) ['a', 'b'] 0 = {preprocess ['a', 'b']} ∧
    Trie.fuzzySearch (buildTrie [['a', 'b']]) ['c'] 0 = ∅ :=
  ⟨(spec_C4 (buildTrie [['a', 'b']]) ['a', 'b']).1 (by decide),
   (spec_C4 (buildTrie [['a', 'b']]) ['c']).2 (by decide)⟩

/-- Claim C8: a query that normalizes to the empty string matches
exactly the stored words of length at most `n`. -/
theorem spec_C8 (t : Trie) (q : List Char) (n : Nat) (h : preprocess q = []) :
    t.fuzzySearch q n = t.words.filter (fun w => w.length ≤ n) := by
  rw [fuzzySearch_eq_filter, h]
  apply Finset.filter_congr
  intro W _
  rw [levGo_nil_right]

theorem spec_C8_witness :
    Trie.fuzzySearch (buildTrie [['a']]) ['?'] 1 =
      (buildTrie [['a']]).words.filter (fun w => w.length ≤ 1) :=
  spec_C8 (buildTrie [['a']]) ['?'] 1 (by decide)

/-! ## The index (`Index`)

Documents are opaque strings (`List Char`).  The inverted index is the
`defaultdict` mapping a token to the set of documents containing it,
kept as an insertion-ordered association list. -/

/-- The whitespace characters Python `str.split()` separates on, in the
ASCII range (the split input is normalized, hence ASCII). -/
def pyIsSpace (c : Char) : Bool :=
  c = ' ' || c = '\t' || c = '\n' || c = '\r' || c = '\x0b' || c = '\x0c' ||
  c = '\x1c' || c = '\x1d' || c = '\x1e' || c = '\x1f'

/-- Python `str.split()` with no argument, one character at a time:
`acc` holds the (reversed) current run of non-whitespace characters;
whitespace finishes the run, and empty runs produce no token. -/
def pySplitAux : List Char → List Char → List (List Char)
  | [], acc => if acc = [] then [] else [acc.reverse]
  | c :: cs, acc =>
    if pyIsSpace c then
      if acc = [] then pySplitAux cs []
      else acc.reverse :: pySplitAux cs []
    else pySplitAux cs (c :: acc)

/-- Python `str.split()`: maximal non-whitespace runs, no empty tokens. -/
def pySplit (s : List Char) : List (List Char) := pySplitAux s []

structure Index where
  trie : Trie
  inv : List (List Char × Finset (List Char))

/-- Dict lookup in the inverted index. -/
def lookupInv : List (List Char × Finset (List Char)) → List Char →
    Option (Finset (List Char))
  | [], _ => none
  | (w, s) :: rest, x => if w = x then some s else lookupInv rest x

/-- `self.inverted_index[word].add(doc)`: add to the existing entry in
place, or create the entry (at the end, in dict insertion order). -/
def addDoc : List (List Char × Finset (List Char)) → List Char → List Char →
    List (List Char × Finset (List Char))
  | [], w, d => [(w, {d})]
  | (w', s) :: rest, w, d =>
    if w' = w then (w', insert d s) :: rest else (w', s) :: addDoc rest w d

/-- `Index.__init__`: for each document, normalize, split, and for each
token insert it into the trie and record the document under the token. -/
def Index.build (docs : List (List Char)) : Index :=
  docs.foldl (fun idx doc =>
    (pySplit (preprocess doc)).foldl
      (fun idx2 w => ⟨idx2.trie.insert w, addDoc idx2.inv w doc⟩) idx)
    ⟨Trie.empty, []⟩

/-- One `defaultdict` read `inverted_index[word]`: the value read, and
the mapping after the read (reading a missing key inserts it with an
empty set -- `defaultdict.__missing__`). -/
def ddGet (inv : List (List Char × Finset (List Char))) (w : List Char) :
    Finset (List Char) × List (List Char × Finset (List Char)) :=
  match lookupInv inv w with
  | some s => (s, inv)
  | none => ((∅ : Finset (List Char)), inv ++ [(w, ∅)])

/-- A canonical iteration order for a set of words: its sorted list of
elements (Python iterates a set in an unspecified order; the result and
the key set of the final mapping do not depend on the order). -/
def wordList (s : Finset (List Char)) : List (List Char) :=
  Quot.liftOn s.val (fun l => l.insertionSort (· ≤ ·)) (fun _ _ h =>
    List.eq_of_perm_of_sorted
      ((List.perm_insertionSort _ _).trans (h.trans (List.perm_insertionSort _ _).symm))
      (List.sorted_insertionSort _ _) (List.sorted_insertionSort _ _))

theorem mem_wordList (s : Finset (List Char)) (w : List Char) :
    w ∈ wordList s ↔ w ∈ s := by
  rcases s with ⟨val, nd⟩
  induction val using Quot.inductionOn with
  | h l =>
    show w ∈ l.insertionSort (· ≤ ·) ↔ _
    rw [(List.perm_insertionSort (· ≤ ·) l).mem_iff]
    rfl

/-- `Index.fuzzySearch` together with its effect on the inverted index:
iterate over the matched words, reading each word's document set from
the defaultdict and accumulating the union. -/
def Index.fuzzySearchRun (idx : Index) (q : List Char) (n : Nat) :
    Finset (List Char) × List (List Char × Finset (List Char)) :=
  (wordList (idx.trie.fuzzySearch q n)).foldl
    (fun acc w => ((ddGet acc.2 w).1 ∪ acc.1, (ddGet acc.2 w).2)) (∅, idx.inv)

/-- The result set of `Index.fuzzySearch`. -/
def Index.fuzzySearch (idx : Index) (q : List Char) (n : Nat) : Finset (List Char) :=
  (idx.fuzzySearchRun q n).1

/-- Union of a finite family indexed by a list. -/
def bigU {α β : Type} [DecidableEq β] (l : List α) (f : α → Finset β) : Finset β :=
  l.foldr (fun a s => f a ∪ s) ∅

theorem mem_bigU {α β : Type} [DecidableEq β] (l : List α) (f : α → Finset β) (x : β) :
    x ∈ bigU l f ↔ ∃ a ∈ l, x ∈ f a := by
  induction l with
  | nil => simp [bigU]
  | cons a rest ih =>
    show x ∈ f a ∪ bigU rest f ↔ _
    simp only [Finset.mem_union, ih, List.mem_cons]
    constructor
    · rintro (h | ⟨b, hb, hx⟩)
      · exact ⟨a, Or.inl rfl, h⟩
      · exact ⟨b, Or.inr hb, hx⟩
    · rintro ⟨b, hb | hb, hx⟩
      · subst hb; exact Or.inl hx
      · exact Or.inr ⟨b, hb, hx⟩

theorem bigU_cons {α β : Type} [DecidableEq β] (a : α) (l : List α) (f : α → Finset β) :
    bigU (a :: l) f = f a ∪ bigU l f := rfl

theorem lookupInv_append_some (l1 l2 : List (List Char × Finset (List Char)))
    (x : List Char) (s : Finset (List Char)) (h : lookupInv l1 x = some s) :
    lookupInv (l1 ++ l2) x = some s := by
  induction l1 with
  | nil => simp [lookupInv] at h
  | cons p rest ih =>
    obtain ⟨w, v⟩ := p
    rw [lookupInv] at h
    rw [List.cons_append, lookupInv]
    by_cases hw : w = x
    · rwa [if_pos hw] at h ⊢
    · rw [if_neg hw] at h ⊢
      exact ih h

theorem lookupInv_append_none (l1 l2 : List (List Char × Finset (List Char)))
    (x : List Char) (h : lookupInv l1 x = none) :
    lookupInv (l1 ++ l2) x = lookupInv l2 x := by
  induction l1 with
  | nil => simp
  | cons p rest ih =>
    obtain ⟨w, v⟩ := p
    rw [lookupInv] at h
    rw [List.cons_append, lookupInv]
    by_cases hw : w = x
    · rw [if_pos hw] at h; exact absurd h (by simp)
    · rw [if_neg hw] at h
      rw [if_neg hw]
      exact ih h

/-- The value a `ddGet` read returns is the looked-up set (empty when
absent), regardless of the keys added by earlier reads. -/
theorem ddGet_fst (inv : List (List Char × Finset (List Char))) (w : List Char) :
    (ddGet inv w).1 = (lookupInv inv w).getD ∅ := by
  cases hl : lookupInv inv w <;> simp [ddGet, hl]

/-- The search's fold over the matched words accumulates the union of
the originally associated document sets: reads of the evolving mapping
agree with the original because missing keys are only ever added with
empty sets. -/
theorem run_foldl (ws : List (List Char)) :
    ∀ (inv inv0 : List (List Char × Finset (List Char))) (acc : Finset (List Char)),
    (∀ w, (lookupInv inv w).getD ∅ = (lookupInv inv0 w).getD ∅) →
    (ws.foldl (fun acc2 w => ((ddGet acc2.2 w).1 ∪ acc2.1, (ddGet acc2.2 w).2)) (acc, inv)).1
      = acc ∪ bigU ws (fun w => (lookupInv inv0 w).getD ∅) := by
  induction ws with
  | nil =>
    intro inv inv0 acc _
    simp [bigU]
  | cons w rest ih =>
    intro inv inv0 acc hagree
    rw [List.foldl_cons]
    have hval : (ddGet inv w).1 = (lookupInv inv0 w).getD ∅ := by
      rw [ddGet_fst, hagree w]
    have hagree' : ∀ x, (lookupInv (ddGet inv w).2 x).getD ∅ =
        (lookupInv inv0 x).getD ∅ := by
      intro x
      cases hl : lookupInv inv w with
      | some s => simp only [ddGet, hl]; exact hagree x
      | none =>
        simp only [ddGet, hl]
        cases hx : lookupInv inv x with
        | some sx =>
          rw [lookupInv_append_some inv [(w, ∅)] x sx hx]
          rw [← hagree x, hx]
        | none =>
          rw [lookupInv_append_none inv [(w, ∅)] x hx]
          rw [← hagree x, hx]
          by_cases hxw : w = x
          · simp [lookupInv, hxw]
          · simp [lookupInv, hxw]
    rw [ih (ddGet inv w).2 inv0 ((ddGet inv w).1 ∪ acc) hagree', hval]
    show _ = acc ∪ ((lookupInv inv0 w).getD ∅ ∪ bigU rest _)
    apply Finset.ext
    intro x
    simp only [Finset.mem_union]
    tauto

/-- Claim C2: the index search equals the union, over the words matched
by the internal trie, of their associated document sets, each document
once. -/
theorem spec_C2 (idx : Index) (q : List Char) (n : Nat) :
    idx.fuzzySearch q n =
      (idx.trie.fuzzySearch q n).biUnion (fun w => (lookupInv idx.inv w).getD ∅) := by
  rw [Index.fuzzySearch, Index.fuzzySearchRun,
    run_foldl _ idx.inv idx.inv ∅ (fun _ => rfl)]
  apply Finset.ext
  intro x
  simp only [Finset.empty_union, mem_bigU, Finset.mem_biUnion, mem_wordList]

/-! ## The search's effect on the inverted index (C9) -/

/-- Folding over words that all have entries leaves the mapping
untouched. -/
theorem run_foldl_snd (ws : List (List Char)) :
    ∀ (inv : List (List Char × Finset (List Char))) (acc : Finset (List Char)),
    (∀ w ∈ ws, (lookupInv inv w).isSome) →
    (ws.foldl (fun acc2 w => ((ddGet acc2.2 w).1 ∪ acc2.1, (ddGet acc2.2 w).2)) (acc, inv)).2
      = inv := by
  induction ws with
  | nil => intro inv acc _; rfl
  | cons w rest ih =>
    intro inv acc hall
    rw [List.foldl_cons]
    have hw := hall w (List.mem_cons_self w rest)
    cases hl : lookupInv inv w with
    | none => rw [hl] at hw; simp at hw
    | some s =>
      have hdd : (ddGet inv w).2 = inv := by simp [ddGet, hl]
      rw [hdd]
      exact ih inv _ (fun x hx => hall x (List.mem_cons_of_mem w hx))

/-- Claim C9, amended: when every word matched by the trie has an entry
in the mapping -- as holds for any index whose stored words all carry
entries, in particular one built from ASCII-only documents -- the
search leaves `wordToDocuments` unchanged.  (In general a matched word
without an entry is added as a fresh key with an empty document set by
the defaultdict read: see the counterexample.) -/
theorem spec_C9 (idx : Index) (q : List Char) (n : Nat)
    (h : ∀ w ∈ idx.trie.fuzzySearch q n, (lookupInv idx.inv w).isSome) :
    (idx.fuzzySearchRun q n).2 = idx.inv := by
  rw [Index.fuzzySearchRun]
  exact run_foldl_snd _ idx.inv ∅ (fun w hw => h w ((mem_wordList _ _).mp hw))

theorem spec_C9_witness :
    (Index.fuzzySearchRun (Index.build [['a', 'b']]) ['a', 'b'] 0).2 =
      (Index.build [['a', 'b']]).inv :=
  spec_C9 (Index.build [['a', 'b']]) ['a', 'b'] 0 (by decide)

/-- Claim C9's original statement fails: on the index built from the
single non-ASCII document `"é"`, a search whose query normalizes to the
empty string matches the empty word stored in the trie, whose
defaultdict read appends the missing key to `wordToDocuments`. -/
theorem spec_C9_counterexample :
    (Index.fuzzySearchRun (Index.build [['é']]) [] 0).2 ≠ (Index.build [['é']]).inv := by
  intro h
  have hkeys : ((Index.fuzzySearchRun (Index.build [['é']]) [] 0).2).map Prod.fst =
      (Index.build [['é']]).inv.map Prod.fst := by rw [h]
  revert hkeys
  decide

/-! ## Trie words versus index keys (C10) -/

theorem toNat_ofNat_small (n : Nat) (h1 : 97 ≤ n) (h2 : n ≤ 122) :
    (Char.ofNat n).toNat = n := by
  have hv : Nat.isValidChar n := Or.inl (by omega)
  rw [Char.ofNat, dif_pos hv]
  simp [Char.ofNatAux, Char.toNat, UInt32.toNat, BitVec.toNat_ofNatLt]

theorem pyLower_toNat_le (c : Char) (h : c.toNat ≤ 127) : (pyLower c).toNat ≤ 127 := by
  rw [pyLower]
  by_cases hc : 65 ≤ c.toNat ∧ c.toNat ≤ 90
  · rw [if_pos hc, toNat_ofNat_small (c.toNat + 32) (by omega) (by omega)]
    omega
  · rw [if_neg hc]
    exact h

theorem pyLower_idem (c : Char) : pyLower (pyLower c) = pyLower c := by
  by_cases hc : 65 ≤ c.toNat ∧ c.toNat ≤ 90
  · have h1 : pyLower c = Char.ofNat (c.toNat + 32) := by rw [pyLower, if_pos hc]
    have h2 : (pyLower c).toNat = c.toNat + 32 := by
      rw [h1, toNat_ofNat_small (c.toNat + 32) (by omega) (by omega)]
    rw [show pyLower (pyLower c) = pyLower c from by
      rw [pyLower, if_neg (by omega)]]
  · rw [show pyLower c = c from by rw [pyLower, if_neg hc]]
    rw [pyLower, if_neg hc]

/-- Characters surviving normalization of ASCII text are lower-case
fixed points, not punctuation, and ASCII. -/
theorem mem_preprocess_ascii (s : List Char) (hs : ∀ c ∈ s, c.toNat ≤ 127) :
    ∀ c ∈ preprocess s, pyLower c = c ∧ isPunct c = false ∧ c.toNat ≤ 127 := by
  intro c hc
  rw [preprocess] at hc
  obtain ⟨b, hb, hcb⟩ := List.mem_map.mp hc
  have hbf := List.mem_filter.mp hb
  obtain ⟨a, ha, hab⟩ := List.mem_map.mp hbf.1
  have hpc : b.toNat ≤ 127 := by
    rw [← hab]
    exact pyLower_toNat_le a (hs a ha)
  have hcb' : c = b := by
    rw [← hcb, asciiReplace, if_pos hpc]
  subst hcb'
  refine ⟨?_, ?_, hpc⟩
  · rw [← hab, pyLower_idem]
  · have := hbf.2
    simpa using this

/-- A string of lower-case, punctuation-free ASCII characters is a fixed
point of normalization. -/
theorem preprocess_fixed_of (w : List Char)
    (h : ∀ c ∈ w, pyLower c = c ∧ isPunct c = false ∧ c.toNat ≤ 127) :
    preprocess w = w := by
  rw [preprocess]
  have h1 : w.map pyLower = w := by
    rw [List.map_congr_left (fun c hc => (h c hc).1)]
    simp
  rw [h1]
  have h2 : w.filter (fun c => !isPunct c) = w := by
    rw [List.filter_eq_self]
    intro c hc
    simp [(h c hc).2.1]
  rw [h2]
  rw [List.map_congr_left (fun c hc => by
    rw [asciiReplace, if_pos (h c hc).2.2])]
  simp

/-- Characters of split tokens come from the split string. -/
theorem pySplitAux_chars : ∀ (s acc w : List Char), w ∈ pySplitAux s acc →
    ∀ c ∈ w, c ∈ s ∨ c ∈ acc := by
  intro s
  induction s with
  | nil =>
    intro acc w hw c hc
    rw [pySplitAux] at hw
    by_cases hacc : acc = []
    · rw [if_pos hacc] at hw
      simp at hw
    · rw [if_neg hacc] at hw
      simp only [List.mem_singleton] at hw
      subst hw
      exact Or.inr (by simpa using hc)
  | cons a rest ih =>
    intro acc w hw c hc
    rw [pySplitAux] at hw
    by_cases hsp : pyIsSpace a = true
    · rw [if_pos hsp] at hw
      by_cases hacc : acc = []
      · rw [if_pos hacc] at hw
        rcases ih [] w hw c hc with h | h
        · exact Or.inl (List.mem_cons_of_mem a h)
        · simp at h
      · rw [if_neg hacc] at hw
        rcases List.mem_cons.mp hw with h | h
        · subst h
          exact Or.inr (by simpa using hc)
        · rcases ih [] w h c hc with h2 | h2
          · exact Or.inl (List.mem_cons_of_mem a h2)
          · simp at h2
    · rw [if_neg hsp] at hw
      rcases ih (a :: acc) w hw c hc with h | h
      · exact Or.inl (List.mem_cons_of_mem a h)
      · rcases List.mem_cons.mp h with h2 | h2
        · subst h2
          exact Or.inl (List.mem_cons_self c rest)
        · exact Or.inr h2

theorem pySplit_chars (s w : List Char) (hw : w ∈ pySplit s) :
    ∀ c ∈ w, c ∈ s := by
  intro c hc
  rcases pySplitAux_chars s [] w hw c hc with h | h
  · exact h
  · simp at h

/-- Adding a document under a token extends the key set by the token. -/
theorem addDoc_keys (inv : List (List Char × Finset (List Char))) (w d : List Char) :
    ((addDoc inv w d).map Prod.fst).toFinset = insert w ((inv.map Prod.fst).toFinset) := by
  induction inv with
  | nil => simp [addDoc]
  | cons p rest ih =>
    obtain ⟨w', s⟩ := p
    by_cases hw : w' = w
    · subst hw
      rw [addDoc, if_pos rfl]
      simp
    · rw [addDoc, if_neg hw]
      simp only [List.map_cons, List.toFinset_cons, ih]
      apply Finset.ext
      intro x
      simp
      tauto

theorem words_insert_eq (t : Trie) (w : List Char) :
    (t.insert w).words = insert (preprocess w) t.words := by
  apply Finset.ext
  intro W
  simp [mem_words_insert]

/-- Claim C10, amended: for an index built from ASCII-only documents the
trie's terminal words are exactly the keys of `wordToDocuments`.  (With
non-ASCII characters the second normalization inside `insert` strips
the `?` placeholders, so trie words and keys diverge: see the
counterexample.) -/
theorem spec_C10 (docs : List (List Char))
    (h : ∀ d ∈ docs, ∀ c ∈ d, c.toNat ≤ 127) :
    (Index.build docs).trie.words = (((Index.build docs).inv.map Prod.fst)).toFinset := by
  have tok_main : ∀ (ws : List (List Char)) (idx : Index) (d : List Char),
      (∀ w ∈ ws, preprocess w = w) →
      idx.trie.words = ((idx.inv.map Prod.fst)).toFinset →
      ((ws.foldl (fun idx2 w => ⟨idx2.trie.insert w, addDoc idx2.inv w d⟩) idx :
          Index).trie.words
        = ((((ws.foldl (fun idx2 w => ⟨idx2.trie.insert w, addDoc idx2.inv w d⟩) idx :
          Index)).inv.map Prod.fst)).toFinset) := by
    intro ws
    induction ws with
    | nil => intro idx d _ hidx; exact hidx
    | cons w rest ih =>
      intro idx d hws hidx
      rw [List.foldl_cons]
      apply ih _ d (fun x hx => hws x (List.mem_cons_of_mem w hx))
      show (idx.trie.insert w).words = ((addDoc idx.inv w d).map Prod.fst).toFinset
      rw [words_insert_eq, addDoc_keys, hidx, hws w (List.mem_cons_self w rest)]
  have doc_main : ∀ (ds : List (List Char)) (idx : Index),
      (∀ d ∈ ds, ∀ c ∈ d, c.toNat ≤ 127) →
      idx.trie.words = ((idx.inv.map Prod.fst)).toFinset →
      ((ds.foldl (fun idx doc =>
          (pySplit (preprocess doc)).foldl
            (fun idx2 w => ⟨idx2.trie.insert w, addDoc idx2.inv w doc⟩) idx) idx :
          Index)).trie.words
        = ((((ds.foldl (fun idx doc =>
          (pySplit (preprocess doc)).foldl
            (fun idx2 w => ⟨idx2.trie.insert w, addDoc idx2.inv w doc⟩) idx) idx :
          Index))).inv.map Prod.fst).toFinset := by
    intro ds
    induction ds with
    | nil => intro idx _ hidx; exact hidx
    | cons d rest ih =>
      intro idx hds hidx
      rw [List.foldl_cons]
      apply ih _ (fun x hx => hds x (List.mem_cons_of_mem d hx))
      apply tok_main _ idx d
      · intro w hw
        apply preprocess_fixed_of
        intro c hc
        exact mem_preprocess_ascii d (hds d (List.mem_cons_self d rest)) c
          (pySplit_chars (preprocess d) w hw c hc)
      · exact hidx
  rw [Index.build]
  apply doc_main docs ⟨Trie.empty, []⟩ h
  show Trie.empty.words = _
  rw [Trie.words, wordsOf_empty]
  simp

theorem spec_C10_witness :
    (Index.build [['a', 'b']]).trie.words =
      (((Index.build [['a', 'b']]).inv.map Prod.fst)).toFinset :=
  spec_C10 [['a', 'b']] (by decide)

/-- Claim C10's original statement fails on a non-ASCII document: the
document `"é"` indexes the key `"?"`, but inserting that token into the
trie normalizes it a second time, stripping the placeholder, so the
trie stores the empty word instead. -/
theorem spec_C10_counterexample :
    (Index.build [['é']]).trie.words ≠ (((Index.build [['é']]).inv.map Prod.fst)).toFinset := by
  intro h
  have h1 : ([] : List Char) ∈ (Index.build [['é']]).trie.words := by decide
  have h2 : ([] : List Char) ∉ (((Index.build [['é']]).inv.map Prod.fst)).toFinset := by decide
  rw [h] at h1
  exact h2 h1

/-! ## Traversal-strategy independence (C5)

The Python loop keeps a work list of pending nodes.  A pending node is
modelled as a job carrying the node's prefix, its already-computed row
(children are pushed only after the parent's row is set, and rows depend
only on the path) and its subtree.  A policy decides how newly pushed
jobs are merged into the pending list: the stack policy puts them in
front, the queue policy at the back, and any reordering of the children
is a policy too.  Every policy yields the same result set, and that set
is `fuzzySearch`. -/

structure SJob where
  pre : List Char
  row : List Nat
  sub : Trie

/-- The words collected when a node is processed. -/
def jobGain (n : Nat) (j : SJob) : Finset (List Char) :=
  if j.sub.isWord = true ∧ rowLast j.row ≤ n then {j.pre} else ∅

/-- The child jobs pushed when a node is processed. -/
def jobExpand (q : List Char) (n : Nat) (j : SJob) : List SJob :=
  if listMin j.row ≤ n then
    j.sub.children.map
      (fun p => ⟨j.pre ++ [p.1], levRow q p.1 (j.pre.length + 1) n j.row, p.2⟩)
  else []

/-- A work-list policy: any way of merging the newly pushed jobs with
the pending ones that keeps exactly those jobs. -/
def Sched : Type := {f : List SJob → List SJob → List SJob //
  ∀ a b, List.Perm (f a b) (a ++ b)}

/-- New jobs on top: the stack policy of the source. -/
def stackSched : Sched := ⟨fun a b => a ++ b, fun _ _ => List.Perm.refl _⟩

/-- New jobs at the back: a breadth-first queue policy. -/
def queueSched : Sched := ⟨fun a b => b ++ a, fun _ _ => List.perm_append_comm⟩

mutual

/-- An executable size of a trie, for the run's termination measure. -/
def trieSize : Trie → Nat
  | .mk _ ch => 1 + childrenSize ch

def childrenSize : List (Char × Trie) → Nat
  | [] => 0
  | (_, t) :: rest => 1 + trieSize t + childrenSize rest

end

def jobSize (j : SJob) : Nat := trieSize j.sub

theorem sum_children_le (ch : List (Char × Trie)) :
    (ch.map (fun p => trieSize p.2)).sum ≤ childrenSize ch := by
  induction ch with
  | nil => simp [childrenSize]
  | cons p rest ih =>
    obtain ⟨c, t⟩ := p
    rw [childrenSize]
    simp only [List.map_cons, List.sum_cons]
    omega

theorem jobExpand_sum_lt (q : List Char) (n : Nat) (j : SJob) :
    (List.map jobSize (jobExpand q n j)).sum < jobSize j := by
  obtain ⟨pre, row, t⟩ := j
  cases t with
  | mk isw ch =>
    have hsize : jobSize ⟨pre, row, Trie.mk isw ch⟩ = 1 + childrenSize ch := by
      rw [jobSize]
      show trieSize (Trie.mk isw ch) = _
      rw [trieSize]
    rw [jobExpand]
    by_cases hmin : listMin row ≤ n
    · rw [if_pos hmin]
      have h1 : List.map jobSize ((Trie.mk isw ch).children.map
          (fun p => SJob.mk (pre ++ [p.1]) (levRow q p.1 (pre.length + 1) n row) p.2)) =
          ch.map (fun p => trieSize p.2) := by
        rw [Trie.children, List.map_map]
        rfl
      have h2 := sum_children_le ch
      rw [hsize, h1]
      omega
    · rw [if_neg hmin]
      rw [hsize]
      simp only [List.map_nil, List.sum_nil]
      omega

/-- Run the traversal under a policy. -/
def runSched (q : List Char) (n : Nat) (σ : Sched) :
    List SJob → Finset (List Char) → Finset (List Char)
  | [], acc => acc
  | j :: rest, acc =>
    runSched q n σ (σ.val (jobExpand q n j) rest) (acc ∪ jobGain n j)
termination_by jobs _ => (jobs.map jobSize).sum
decreasing_by
  have hperm : List.Perm (σ.val (jobExpand q n j) rest) (jobExpand q n j ++ rest) :=
    σ.property _ _
  have hsum : (List.map jobSize (σ.val (jobExpand q n j) rest)).sum =
      (List.map jobSize (jobExpand q n j)).sum + (List.map jobSize rest).sum := by
    rw [List.Perm.sum_eq (List.Perm.map jobSize hperm), List.map_append, List.sum_append]
  have hexp := jobExpand_sum_lt q n j
  simp only [List.map_cons, List.sum_cons]
  omega

theorem bigU_perm {α β : Type} [DecidableEq β] (f : α → Finset β)
    {l1 l2 : List α} (h : l1.Perm l2) : bigU l1 f = bigU l2 f := by
  induction h with
  | nil => rfl
  | cons x _ ih => rw [bigU_cons, bigU_cons, ih]
  | swap x y l =>
    rw [bigU_cons, bigU_cons, bigU_cons, bigU_cons,
      ← Finset.union_assoc, Finset.union_comm (f y) (f x), Finset.union_assoc]
  | trans _ _ ih1 ih2 => rw [ih1, ih2]

theorem bigU_append {α β : Type} [DecidableEq β] (l1 l2 : List α) (f : α → Finset β) :
    bigU (l1 ++ l2) f = bigU l1 f ∪ bigU l2 f := by
  induction l1 with
  | nil =>
    rw [List.nil_append]
    show bigU l2 f = bigU ([] : List α) f ∪ bigU l2 f
    rw [show bigU ([] : List α) f = ∅ from rfl, Finset.empty_union]
  | cons a rest ih =>
    rw [List.cons_append, bigU_cons, bigU_cons, ih, Finset.union_assoc]

theorem bigU_children (q : List Char) (n : Nat) (ch : List (Char × Trie))
    (pre : List Char) (row : List Nat) :
    bigU (ch.map (fun p =>
        SJob.mk (pre ++ [p.1]) (levRow q p.1 (pre.length + 1) n row) p.2))
      (fun j2 => fuzzyGo q n j2.sub j2.pre j2.row) = fuzzyChildren q n ch pre row := by
  induction ch with
  | nil =>
    rw [fuzzyChildren]
    rfl
  | cons p rest ih =>
    obtain ⟨c, t⟩ := p
    rw [List.map_cons, bigU_cons, ih, fuzzyChildren]

/-- One processing step gains the node's own contribution and leaves the
children's subtrees. -/
theorem fuzzyGo_job (q : List Char) (n : Nat) (j : SJob) :
    fuzzyGo q n j.sub j.pre j.row =
      jobGain n j ∪ bigU (jobExpand q n j) (fun j2 => fuzzyGo q n j2.sub j2.pre j2.row) := by
  obtain ⟨pre, row, t⟩ := j
  cases t with
  | mk isw ch =>
    rw [fuzzyGo, jobGain, jobExpand]
    show _ = (if (Trie.mk isw ch).isWord = true ∧ rowLast row ≤ n then {pre} else ∅) ∪ _
    rw [Trie.isWord]
    by_cases hmin : listMin row ≤ n
    · rw [if_pos hmin, if_pos hmin, bigU_children]
      simp [Trie.children]
    · rw [if_neg hmin, if_neg hmin]
      simp [bigU]

/-- The run accumulates exactly the recursive traversal of every pending
job, whatever the policy. -/
theorem runSched_eq (q : List Char) (n : Nat) (σ : Sched) :
    ∀ (jobs : List SJob) (acc : Finset (List Char)),
    runSched q n σ jobs acc =
      acc ∪ bigU jobs (fun j => fuzzyGo q n j.sub j.pre j.row) := by
  intro jobs acc
  induction jobs, acc using runSched.induct q n σ with
  | case1 acc =>
    rw [runSched]
    rw [show bigU ([] : List SJob) (fun j => fuzzyGo q n j.sub j.pre j.row) = ∅ from rfl]
    rw [Finset.union_empty]
  | case2 j rest acc ih =>
    rw [runSched, ih]
    rw [bigU_perm _ (σ.property (jobExpand q n j) rest), bigU_append]
    simp only [bigU_cons]
    rw [fuzzyGo_job q n j]
    apply Finset.ext
    intro x
    simp only [Finset.mem_union]
    tauto

/-- Claim C5: the result set is invariant under the traversal strategy.
Under every policy -- stack or queue, children pushed in any order --
the work-list run from the root returns exactly `fuzzySearch`; in
particular any two runs return identical result sets. -/
theorem spec_C5 (σ : Sched) (t : Trie) (q : List Char) (n : Nat) :
    runSched (preprocess q) n σ [⟨[], initRow (preprocess q), t⟩] ∅ =
      t.fuzzySearch q n := by
  rw [runSched_eq, Trie.fuzzySearch]
  simp only [bigU_cons]
  rw [show bigU ([] : List SJob)
      (fun j => fuzzyGo (preprocess q) n j.sub j.pre j.row) = ∅ from rfl]
  rw [Finset.union_empty, Finset.empty_union]

/-! ## The visited-set machine (C6)

A faithful small-step model of the `fuzzySearch` loop: a stack of
pending node prefixes, the visited set, the per-call table of computed
rows (Python stores each row on its node; a trie node is identified by
its prefix), and the accumulated result.  A popped node in the visited
set would be skipped; a popped node outside it has its row computed --
the root from scratch, any other node from its parent's table entry --
and its children pushed when the row minimum passes the bound.

The source initializes `visited` to the empty set and never adds to it,
so the check `node not in visited` always succeeds; the model keeps the
set inert in the same way.  Rows are nevertheless computed at most once
per node, because a well-formed trie is a tree whose children carry
distinct characters: a node can only ever be pushed by the single
processing of its single parent. -/

/-- The node of a trie at a prefix. -/
def nodeAt : Trie → List Char → Option Trie
  | t, [] => some t
  | t, c :: cs =>
    match findChild t.children c with
    | some u => nodeAt u cs
    | none => none

/-- Row lookup in the per-call side table. -/
def lookupRow : List (List Char × List Nat) → List Char → Option (List Nat)
  | [], _ => none
  | (p, r) :: rest, x => if p = x then some r else lookupRow rest x

/-- The row this call computes for the node at prefix `p`: the identity
row at the root, the windowed recurrence from the parent's row below. -/
def canonRow (q : List Char) (n : Nat) : List Char → List Nat
  | [] => initRow q
  | c :: cs =>
    levRow q ((c :: cs).getLastD ' ') (cs.length + 1) n (canonRow q n (c :: cs).dropLast)
termination_by p => p.length
decreasing_by
  simp

structure MState where
  stack : List (List Char)
  visited : List (List Char)
  rows : List (List Char × List Nat)
  found : Finset (List Char)

/-- One iteration of the `while stack` loop.  The visited set is read
(a member would be skipped) but, as in the source, never written. -/
inductive MStep (t : Trie) (q : List Char) (n : Nat) : MState → MState → Prop where
  | skip (p : List Char) (st v : List (List Char)) (r : List (List Char × List Nat))
      (f : Finset (List Char)) : p ∈ v →
      MStep t q n ⟨p :: st, v, r, f⟩ ⟨st, v, r, f⟩
  | procRoot (st v : List (List Char)) (r : List (List Char × List Nat))
      (f : Finset (List Char)) (node : Trie) :
      ([] : List Char) ∉ v → nodeAt t [] = some node →
      MStep t q n ⟨[] :: st, v, r, f⟩
        ⟨(if listMin (initRow q) ≤ n then node.children.map (fun pr => [pr.1]) else []) ++ st,
         v, ([], initRow q) :: r,
         f ∪ (if node.isWord = true ∧ rowLast (initRow q) ≤ n
              then {([] : List Char)} else ∅)⟩
  | procNode (p : List Char) (st v : List (List Char))
      (r : List (List Char × List Nat)) (f : Finset (List Char))
      (node : Trie) (prow : List Nat) :
      p ∉ v → p ≠ [] → nodeAt t p = some node →
      lookupRow r p.dropLast = some prow →
      MStep t q n ⟨p :: st, v, r, f⟩
        ⟨(if listMin (levRow q (p.getLastD ' ') p.length n prow) ≤ n
            then node.children.map (fun pr => p ++ [pr.1]) else []) ++ st,
         v, (p, levRow q (p.getLastD ' ') p.length n prow) :: r,
         f ∪ (if node.isWord = true ∧ rowLast (levRow q (p.getLastD ' ') p.length n prow) ≤ n
              then {p} else ∅)⟩

/-- The call's starting state: the stack holds the root, the visited set
is empty (and stays empty). -/
def initM : MState := ⟨[[]], [], [], ∅⟩

/-- The states a call can reach. -/
def Reach (t : Trie) (q : List Char) (n : Nat) : MState → Prop :=
  Relation.ReflTransGen (MStep t q n) initM

/-! ### Well-formed tries

Python dict keys are unique, so every trie the source can build has
pairwise distinct characters on the children of each node. -/

/-- Each node's children carry distinct characters. -/
inductive WFTrie : Trie → Prop where
  | mk (isw : Bool) (ch : List (Char × Trie)) :
      (ch.map Prod.fst).Nodup → (∀ p ∈ ch, WFTrie p.2) → WFTrie (.mk isw ch)

theorem WFTrie_children (isw : Bool) (ch : List (Char × Trie))
    (h : WFTrie (.mk isw ch)) :
    (ch.map Prod.fst).Nodup ∧ ∀ p ∈ ch, WFTrie p.2 := by
  cases h with
  | mk _ _ hnd hmem => exact ⟨hnd, hmem⟩

theorem WFTrie_empty : WFTrie Trie.empty :=
  WFTrie.mk false [] (by simp) (by simp)

theorem findChild_mem (ch : List (Char × Trie)) (c : Char) (u : Trie)
    (h : findChild ch c = some u) : (c, u) ∈ ch := by
  induction ch with
  | nil => simp [findChild] at h
  | cons p rest ih =>
    obtain ⟨d, w⟩ := p
    rw [findChild] at h
    by_cases hd : d = c
    · rw [if_pos hd] at h
      injection h with h
      subst hd; subst h
      exact List.mem_cons_self _ _
    · rw [if_neg hd] at h
      exact List.mem_cons_of_mem _ (ih h)

theorem setChild_keys (ch : List (Char × Trie)) (c : Char) (t' : Trie) :
    (setChild ch c t').map Prod.fst =
      if c ∈ ch.map Prod.fst then ch.map Prod.fst else ch.map Prod.fst ++ [c] := by
  induction ch with
  | nil => simp [setChild]
  | cons p rest ih =>
    obtain ⟨d, u⟩ := p
    rw [setChild]
    by_cases hd : d = c
    · subst hd
      rw [if_pos rfl]
      simp
    · rw [if_neg hd]
      simp only [List.map_cons, List.mem_cons]
      rw [ih]
      by_cases hc : c ∈ rest.map Prod.fst
      · rw [if_pos hc, if_pos (Or.inr hc)]
      · rw [if_neg hc, if_neg (by
          rintro (h | h)
          · exact hd h.symm
          · exact hc h)]
        simp

theorem setChild_mem (ch : List (Char × Trie)) (c : Char) (t' : Trie) :
    ∀ d u, (d, u) ∈ setChild ch c t' → (d, u) ∈ ch ∨ (d = c ∧ u = t') := by
  induction ch with
  | nil =>
    intro d u h
    rw [setChild] at h
    simp only [List.mem_singleton] at h
    injection h with h1 h2
    exact Or.inr ⟨h1, h2⟩
  | cons p rest ih =>
    obtain ⟨d0, u0⟩ := p
    intro d u h
    rw [setChild] at h
    by_cases hd : d0 = c
    · rw [if_pos hd] at h
      rcases List.mem_cons.mp h with h1 | h1
      · injection h1 with h1 h2
        exact Or.inr ⟨h1.trans hd, h2⟩
      · exact Or.inl (List.mem_cons_of_mem _ h1)
    · rw [if_neg hd] at h
      rcases List.mem_cons.mp h with h1 | h1
      · exact Or.inl (h1 ▸ List.mem_cons_self _ _)
      · rcases ih d u h1 with h2 | h2
        · exact Or.inl (List.mem_cons_of_mem _ h2)
        · exact Or.inr h2

theorem setChild_keys_nodup (ch : List (Char × Trie)) (c : Char) (t' : Trie)
    (h : (ch.map Prod.fst).Nodup) : ((setChild ch c t').map Prod.fst).Nodup := by
  rw [setChild_keys]
  by_cases hc : c ∈ ch.map Prod.fst
  · rw [if_pos hc]
    exact h
  · rw [if_neg hc]
    rw [List.nodup_append]
    exact ⟨h, List.nodup_singleton c, by
      intro x hx hmem
      simp only [List.mem_singleton] at hmem
      subst hmem
      exact hc hx⟩

theorem WFTrie_insertRaw : ∀ (v : List Char) (t : Trie),
    WFTrie t → WFTrie (Trie.insertRaw t v) := by
  intro v
  induction v with
  | nil =>
    intro t h
    cases t with
    | mk b ch =>
      rw [Trie.insertRaw]
      obtain ⟨hnd, hmem⟩ := WFTrie_children b ch h
      exact WFTrie.mk true ch hnd hmem
  | cons c cs ih =>
    intro t h
    cases t with
    | mk b ch =>
      rw [Trie.insertRaw]
      obtain ⟨hnd, hmem⟩ := WFTrie_children b ch h
      have hsub : WFTrie ((findChild ch c).getD Trie.empty) := by
        cases hfc : findChild ch c with
        | none => exact WFTrie_empty
        | some w => exact hmem (c, w) (findChild_mem ch c w hfc)
      refine WFTrie.mk b _ (setChild_keys_nodup ch c _ hnd) ?_
      intro p hp
      obtain ⟨d, u⟩ := p
      rcases setChild_mem ch c _ d u hp with h1 | ⟨_, h2⟩
      · exact hmem (d, u) h1
      · rw [h2]
        exact ih _ hsub

/-- Every trie the source builds is well-formed. -/
theorem buildTrie_WF (ws : List (List Char)) : WFTrie (buildTrie ws) := by
  rw [buildTrie]
  have main : ∀ (l : List (List Char)) (t : Trie),
      WFTrie t → WFTrie (l.foldl Trie.insert t) := by
    intro l
    induction l with
    | nil => intro t h; exact h
    | cons w rest ihl =>
      intro t h
      rw [List.foldl_cons]
      exact ihl _ (WFTrie_insertRaw (preprocess w) t h)
  exact main ws Trie.empty WFTrie_empty

theorem lookupRow_mem (r : List (List Char × List Nat)) (x : List Char) (v : List Nat)
    (h : lookupRow r x = some v) : (x, v) ∈ r := by
  induction r with
  | nil => simp [lookupRow] at h
  | cons pr rest ih =>
    obtain ⟨p0, r0⟩ := pr
    rw [lookupRow] at h
    by_cases hp : p0 = x
    · rw [if_pos hp] at h
      injection h with h
      subst hp; subst h
      exact List.mem_cons_self _ _
    · rw [if_neg hp] at h
      exact List.mem_cons_of_mem _ (ih h)

theorem lookupRow_isSome_iff (r : List (List Char × List Nat)) (x : List Char) :
    (lookupRow r x).isSome ↔ x ∈ r.map Prod.fst := by
  induction r with
  | nil => simp [lookupRow]
  | cons pr rest ih =>
    obtain ⟨p0, r0⟩ := pr
    rw [lookupRow]
    by_cases hp : p0 = x
    · subst hp; simp
    · rw [if_neg hp]
      simp only [List.map_cons, List.mem_cons, ih]
      constructor
      · intro h; exact Or.inr h
      · rintro (h | h)
        · exact absurd h.symm hp
        · exact h

theorem findChild_isSome_of_mem (ch : List (Char × Trie)) (c : Char) (u : Trie)
    (h : (c, u) ∈ ch) : (findChild ch c).isSome := by
  induction ch with
  | nil => simp at h
  | cons p rest ih =>
    obtain ⟨d, w⟩ := p
    rw [findChild]
    by_cases hd : d = c
    · rw [if_pos hd]; simp
    · rw [if_neg hd]
      rcases List.mem_cons.mp h with h1 | h1
      · injection h1 with h1 h2
        exact absurd h1.symm hd
      · exact ih h1

theorem nodeAt_append_child : ∀ (p : List Char) (t node : Trie) (c : Char) (u : Trie),
    nodeAt t p = some node → (c, u) ∈ node.children → (nodeAt t (p ++ [c])).isSome := by
  intro p
  induction p with
  | nil =>
    intro t node c u h1 h2
    rw [nodeAt] at h1
    injection h1 with h1
    subst h1
    have hf := findChild_isSome_of_mem t.children c u h2
    cases hfc : findChild t.children c with
    | none => rw [hfc] at hf; simp at hf
    | some w =>
      show (nodeAt t [c]).isSome
      rw [nodeAt, hfc]
      simp [nodeAt]
  | cons c0 cs ih =>
    intro t node c u h1 h2
    rw [nodeAt] at h1
    cases hfc : findChild t.children c0 with
    | none => rw [hfc] at h1; simp at h1
    | some w =>
      rw [hfc] at h1
      show (nodeAt t (c0 :: (cs ++ [c]))).isSome
      rw [nodeAt, hfc]
      exact ih w node c u h1 h2

theorem WFTrie_nodeAt : ∀ (p : List Char) (t : Trie), WFTrie t →
    ∀ u, nodeAt t p = some u → WFTrie u := by
  intro p
  induction p with
  | nil =>
    intro t h u hu
    rw [nodeAt] at hu
    injection hu with hu
    rw [← hu]
    exact h
  | cons c cs ih =>
    intro t h u hu
    rw [nodeAt] at hu
    cases hfc : findChild t.children c with
    | none => rw [hfc] at hu; simp at hu
    | some w =>
      rw [hfc] at hu
      cases t with
      | mk isw ch =>
        have hw : WFTrie w :=
          (WFTrie_children isw ch h).2 (c, w) (findChild_mem ch c w hfc)
        exact ih w hw u hu

/-- The machine's invariant.  The visited set is empty; the pending
prefixes together with the row table's keys are pairwise distinct (each
node is pushed at most once and its row computed at most once); every
stored row is the canonical row of this call; every pending or
processed non-root node's parent row is present in the table and
canonical; every pending prefix names a real node. -/
def MInv (t : Trie) (q : List Char) (n : Nat) (s : MState) : Prop :=
  s.visited = [] ∧
  (s.stack ++ s.rows.map Prod.fst).Nodup ∧
  (∀ pr ∈ s.rows, pr.2 = canonRow q n pr.1) ∧
  (∀ p ∈ s.stack, p ≠ [] →
    lookupRow s.rows p.dropLast = some (canonRow q n p.dropLast)) ∧
  (∀ x ∈ s.rows.map Prod.fst, x ≠ [] →
    lookupRow s.rows x.dropLast = some (canonRow q n x.dropLast)) ∧
  (∀ p ∈ s.stack, (nodeAt t p).isSome)

theorem MInv_init (t : Trie) (q : List Char) (n : Nat) : MInv t q n initM := by
  refine ⟨rfl, by simp [initM], by simp [initM], ?_, by simp [initM], ?_⟩
  · intro p hp hne
    rw [initM] at hp
    simp only [List.mem_singleton] at hp
    exact absurd hp hne
  · intro p hp
    rw [initM] at hp
    simp only [List.mem_singleton] at hp
    subst hp
    rw [nodeAt]
    simp

/-- Rearranged distinctness when one pending prefix is processed and
fresh children are pushed. -/
theorem nodup_shift (p : List Char) (st keys newc : List (List Char))
    (hnd : ((p :: st) ++ keys).Nodup) (hnc : newc.Nodup)
    (hfresh : ∀ x ∈ newc, x ∉ (p :: st) ++ keys) :
    ((newc ++ st) ++ (p :: keys)).Nodup := by
  have hperm : ((newc ++ st) ++ (p :: keys)).Perm (newc ++ ((p :: st) ++ keys)) := by
    rw [List.append_assoc]
    exact List.Perm.append_left newc (List.perm_middle)
  rw [hperm.nodup_iff]
  rw [List.nodup_append]
  exact ⟨hnc, hnd, fun x hx hmem => hfresh x hx hmem⟩

/-- Processing one pending node preserves the invariant: its row is the
canonical one, its children are fresh, and every parent reference keeps
resolving to a canonical row. -/
theorem MInv_process (t : Trie) (q : List Char) (n : Nat)
    (p : List Char) (st v : List (List Char))
    (r : List (List Char × List Nat)) (f f' : Finset (List Char))
    (node : Trie) (row : List Nat)
    (hwfnode : WFTrie node)
    (hna : nodeAt t p = some node)
    (hrow : row = canonRow q n p)
    (hparp : p = [] ∨ lookupRow r p.dropLast = some (canonRow q n p.dropLast))
    (hs : MInv t q n ⟨p :: st, v, r, f⟩) :
    MInv t q n
      ⟨(if listMin row ≤ n then node.children.map (fun pr => p ++ [pr.1]) else []) ++ st,
       v, (p, row) :: r, f'⟩ := by
  obtain ⟨isw, ch⟩ := node
  obtain ⟨hv, hnd, hcanon, hpar, hkpar, hnode⟩ := hs
  have hnd' : ((p :: st) ++ r.map Prod.fst).Nodup := hnd
  have hpnotk : p ∉ r.map Prod.fst := fun hmem =>
    (List.nodup_append.mp hnd').2.2 (List.mem_cons_self p st) hmem
  have hfresh : ∀ c u, (c, u) ∈ ch → (p ++ [c]) ∉ (p :: st) ++ r.map Prod.fst := by
    intro c u hcu hmem
    rcases List.mem_append.mp hmem with h1 | h1
    · rcases List.mem_cons.mp h1 with h2 | h2
      · have hlen := congrArg List.length h2
        simp at hlen
      · have hlp := hpar (p ++ [c]) (List.mem_cons_of_mem p h2) (by simp)
        rw [List.dropLast_concat] at hlp
        have hsome : (lookupRow r p).isSome := by rw [hlp]; rfl
        exact hpnotk ((lookupRow_isSome_iff r p).mp hsome)
    · have hlp := hkpar (p ++ [c]) h1 (by simp)
      rw [List.dropLast_concat] at hlp
      have hsome : (lookupRow r p).isSome := by rw [hlp]; rfl
      exact hpnotk ((lookupRow_isSome_iff r p).mp hsome)
  have hnewlookup : ∀ y, y ≠ [] →
      (y.dropLast = p ∨ lookupRow r y.dropLast = some (canonRow q n y.dropLast)) →
      lookupRow ((p, row) :: r) y.dropLast = some (canonRow q n y.dropLast) := by
    intro y _ hcase
    rcases hcase with h1 | h1
    · rw [lookupRow, if_pos h1.symm, h1, hrow]
    · by_cases hpy : p = y.dropLast
      · rw [lookupRow, if_pos hpy, hrow, hpy]
      · rw [lookupRow, if_neg hpy]
        exact h1
  refine ⟨hv, ?_, ?_, ?_, ?_, ?_⟩
  · by_cases hmin : listMin row ≤ n
    · rw [if_pos hmin]
      apply nodup_shift p st (r.map Prod.fst) _ hnd'
      · have hkeys := (WFTrie_children isw ch hwfnode).1
        have hmapeq : (Trie.mk isw ch).children.map (fun pr => p ++ [pr.1]) =
            (ch.map Prod.fst).map (fun c => p ++ [c]) := by
          rw [Trie.children, List.map_map]
          rfl
        rw [hmapeq]
        refine hkeys.map ?_
        intro a b hab
        have h2 := List.append_cancel_left hab
        injection h2
      · intro x hx
        obtain ⟨pr, hpr, hpe⟩ := List.mem_map.mp hx
        obtain ⟨c, u⟩ := pr
        rw [← hpe]
        exact hfresh c u hpr
    · rw [if_neg hmin]
      exact nodup_shift p st (r.map Prod.fst) [] hnd' (by simp) (by simp)
  · intro pr2 hpr2
    rcases List.mem_cons.mp hpr2 with h1 | h1
    · rw [h1]
      exact hrow
    · exact hcanon pr2 h1
  · intro x hx hne
    rcases List.mem_append.mp hx with h1 | h1
    · by_cases hmin : listMin row ≤ n
      · rw [if_pos hmin] at h1
        obtain ⟨pr2, hpr2, hpe⟩ := List.mem_map.mp h1
        have hdx : x.dropLast = p := by
          rw [← hpe]
          exact List.dropLast_concat
        exact hnewlookup x hne (Or.inl hdx)
      · rw [if_neg hmin] at h1
        simp at h1
    · exact hnewlookup x hne (Or.inr (hpar x (List.mem_cons_of_mem p h1) hne))
  · intro x hx hne
    rw [List.map_cons] at hx
    rcases List.mem_cons.mp hx with h1 | h1
    · subst h1
      rcases hparp with h2 | h2
      · exact absurd h2 hne
      · have hne2 : ¬ (x = x.dropLast) := by
          intro hx2
          have hlen := congrArg List.length hx2
          rw [List.length_dropLast] at hlen
          cases x with
          | nil => exact hne rfl
          | cons a l =>
            simp only [List.length_cons] at hlen
            omega
        rw [lookupRow, if_neg hne2]
        exact h2
    · exact hnewlookup x hne (Or.inr (hkpar x h1 hne))
  · intro x hx
    rcases List.mem_append.mp hx with h1 | h1
    · by_cases hmin : listMin row ≤ n
      · rw [if_pos hmin] at h1
        obtain ⟨pr2, hpr2, hpe⟩ := List.mem_map.mp h1
        obtain ⟨c, u⟩ := pr2
        subst hpe
        exact nodeAt_append_child p t (Trie.mk isw ch) c u hna hpr2
      · rw [if_neg hmin] at h1
        simp at h1
    · exact hnode x (List.mem_cons_of_mem p h1)

theorem MInv_step (t : Trie) (q : List Char) (n : Nat) (hwf : WFTrie t) {s s' : MState}
    (hs : MInv t q n s) (h : MStep t q n s s') : MInv t q n s' := by
  obtain ⟨hv, hnd, hcanon, hpar, hkpar, hnode⟩ := hs
  cases h with
  | skip p st v r f hp =>
    exfalso
    rw [show v = [] from hv] at hp
    simp at hp
  | procRoot st v r f node hnv hna =>
    exact MInv_process t q n [] st v r f _ node (initRow q)
      (WFTrie_nodeAt [] t hwf node hna) hna (by rw [canonRow]) (Or.inl rfl)
      ⟨hv, hnd, hcanon, hpar, hkpar, hnode⟩
  | procNode p st v r f node prow hpv hpne hna hlk =>
    have hprow : prow = canonRow q n p.dropLast :=
      hcanon (p.dropLast, prow) (lookupRow_mem r p.dropLast prow hlk)
    have hrow : levRow q (p.getLastD ' ') p.length n prow = canonRow q n p := by
      cases p with
      | nil => exact absurd rfl hpne
      | cons c0 cs =>
        rw [hprow]
        conv_rhs => rw [canonRow]
        rfl
    exact MInv_process t q n p st v r f _ node _
      (WFTrie_nodeAt p t hwf node hna) hna hrow
      (Or.inr (by rw [hlk, hprow])) ⟨hv, hnd, hcanon, hpar, hkpar, hnode⟩

theorem MInv_reach (t : Trie) (q : List Char) (n : Nat) (hwf : WFTrie t) (s : MState)
    (h : Reach t q n s) : MInv t q n s := by
  induction h with
  | refl => exact MInv_init t q n
  | tail _ hstep ih => exact MInv_step t q n hwf ih hstep

/-- Claim C6: on a well-formed trie (distinct child characters, as every
trie the source builds has), in every state a `fuzzySearch` call can
reach, each node's row has been computed at most once (the row table's
keys are distinct -- a node is pushed only by the single processing of
its single parent, so no duplicate work ever arises), every stored row
is the canonical row of this call, and every pending non-root node's
parent row is present in the table and canonical -- the read of the
parent's `distanceRow` never sees an absent (`None`) or stale value. -/
theorem spec_C6 (t : Trie) (q : List Char) (n : Nat) (s : MState)
    (hwf : WFTrie t) (h : Reach t q n s) :
    (s.rows.map Prod.fst).Nodup ∧
    (∀ pr ∈ s.rows, pr.2 = canonRow q n pr.1) ∧
    (∀ p ∈ s.stack, p ≠ [] →
      lookupRow s.rows p.dropLast = some (canonRow q n p.dropLast)) := by
  obtain ⟨_, h2, h3, h4, _, _⟩ := MInv_reach t q n hwf s h
  exact ⟨(List.nodup_append.mp h2).2.1, h3, h4⟩

theorem spec_C6_witness :
    ((initM).rows.map Prod.fst).Nodup ∧
    (∀ pr ∈ (initM).rows, pr.2 = canonRow ['a'] 1 pr.1) ∧
    (∀ p ∈ (initM).stack, p ≠ [] →
      lookupRow (initM).rows p.dropLast = some (canonRow ['a'] 1 p.dropLast)) :=
  spec_C6 (buildTrie [['a']]) ['a'] 1 initM (buildTrie_WF [['a']])
    Relation.ReflTransGen.refl
/-! ## Negative distance bounds (C7)

Python's `fuzzySearch` accepts any integer bound and has no `raise`
anywhere.  To settle the behaviour at negative bounds the traversal is
restated over `Int` bounds, exactly as the interpreter runs it. -/

def rowEntryI (q : List Char) (c : Char) (d0 n : Int) (prev : List Int) : Nat → Int
  | 0 => d0
  | j + 1 =>
    if max 0 (d0 - n - 1) ≤ (j : Int) ∧ (j : Int) < min (q.length : Int) (d0 + n + 1) then
      if q.getD j ' ' = c then prev.getD j 0
      else 1 + min (prev.getD j 0) (min (prev.getD (j + 1) 0) (rowEntryI q c d0 n prev j))
    else n + 1

def levRowI (q : List Char) (c : Char) (d0 n : Int) (prev : List Int) : List Int :=
  (List.range (q.length + 1)).map (rowEntryI q c d0 n prev)

def initRowI (q : List Char) : List Int :=
  (List.range (q.length + 1)).map Int.ofNat

def listMinI : List Int → Int
  | [] => 0
  | a :: l => l.foldl min a

def rowLastI (l : List Int) : Int := l.getLastD 0

mutual

def fuzzyGoI (q : List Char) (n : Int) : Trie → List Char → List Int → Finset (List Char)
  | .mk isw ch, pre, row =>
    (if isw = true ∧ rowLastI row ≤ n then {pre} else (∅ : Finset (List Char))) ∪
    (if listMinI row ≤ n then fuzzyChildrenI q n ch pre row else ∅)

def fuzzyChildrenI (q : List Char) (n : Int) :
    List (Char × Trie) → List Char → List Int → Finset (List Char)
  | [], _, _ => ∅
  | (c, t) :: rest, pre, row =>
    fuzzyGoI q n t (pre ++ [c]) (levRowI q c ((pre.length : Int) + 1) n row) ∪
      fuzzyChildrenI q n rest pre row

end

/-- `Trie.fuzzySearch` on an arbitrary integer bound. -/
def Trie.fuzzySearchI (t : Trie) (q : List Char) (n : Int) : Finset (List Char) :=
  fuzzyGoI (preprocess q) n t [] (initRowI (preprocess q))

theorem foldl_minI_ge (l : List Int) : ∀ (a b : Int), b ≤ a → (∀ x ∈ l, b ≤ x) →
    b ≤ l.foldl min a := by
  induction l with
  | nil => intro a b hba _; simpa using hba
  | cons x l ih =>
    intro a b hba hall
    rw [List.foldl_cons]
    exact ih (min a x) b (le_min hba (hall x (List.mem_cons_self x l)))
      (fun y hy => hall y (List.mem_cons_of_mem x hy))

theorem listMinI_initRowI_nonneg (q : List Char) : 0 ≤ listMinI (initRowI q) := by
  have hmem : ∀ x ∈ initRowI q, (0 : Int) ≤ x := by
    intro x hx
    rw [initRowI] at hx
    obtain ⟨j, _, hj⟩ := List.mem_map.mp hx
    rw [← hj]
    exact Int.natCast_nonneg j
  cases hE : initRowI q with
  | nil => rw [listMinI]
  | cons a rest =>
    rw [listMinI]
    apply foldl_minI_ge
    · exact hmem a (by rw [hE]; exact List.mem_cons_self a rest)
    · intro x hx
      exact hmem x (by rw [hE]; exact List.mem_cons_of_mem a hx)

theorem rowLastI_initRowI (q : List Char) : rowLastI (initRowI q) = (q.length : Int) := by
  have hlen : (initRowI q).length = q.length + 1 := by
    rw [initRowI, List.length_map, List.length_range]
  rw [rowLastI, List.getLastD_eq_getLast?, List.getLast?_eq_getElem?, hlen, initRowI]
  rw [show q.length + 1 - 1 = q.length from rfl]
  rw [List.getElem?_map, List.getElem?_range (Nat.lt_succ_self q.length)]
  rfl

/-- Claim C7, amended: a negative bound raises nothing; the traversal
runs, matches no word and expands no child, and returns the empty set
(the source contains no guard, as the specification itself records). -/
theorem spec_C7 (t : Trie) (q : List Char) (n : Int) (h : n < 0) :
    t.fuzzySearchI q n = ∅ := by
  rw [Trie.fuzzySearchI]
  cases t with
  | mk isw ch =>
    rw [fuzzyGoI]
    have hlast := rowLastI_initRowI (preprocess q)
    have hmin := listMinI_initRowI_nonneg (preprocess q)
    have h1 : ¬ listMinI (initRowI (preprocess q)) ≤ n := by omega
    have h2 : ¬ (isw = true ∧ rowLastI (initRowI (preprocess q)) ≤ n) := by
      rintro ⟨_, hx⟩
      rw [hlast] at hx
      omega
    rw [if_neg h2, if_neg h1, Finset.union_empty]

theorem spec_C7_witness :
    Trie.fuzzySearchI (buildTrie [['a']]) ['a'] (-1) = ∅ :=
  spec_C7 (buildTrie [['a']]) ['a'] (-1) (by decide)

/-- The original claim C7 fails on the code: with bound `-1` the search
returns the empty result set instead of signalling an invalid argument
(the model is a total function, mirroring the absence of any `raise`
path in the source). -/
theorem spec_C7_counterexample :
    Trie.fuzzySearchI (buildTrie [['a']]) ['a'] (-1) = ∅ := by
  decide

/-! ## The repository's smoke test

The concrete scenarios of the test suite, replayed on the embedding. -/

def smokeTrie : Trie :=
  buildTrie [['O', 'l', 'i', 'v', 'i', 'e', 'r'], ['O', 'l', 'i', 'v', 'e', 'r'],
    ['A', 'l', 'i', 'v', 'i', 'e', 'r'], ['a', 'l', 'i', 'v', 'e', 'r']]

theorem smokeTrie_exact :
    Trie.fuzzySearch smokeTrie ['o', 'l', 'i', 'v', 'i', 'e', 'r'] 0 =
      {['o', 'l', 'i', 'v', 'i', 'e', 'r']} := by
  decide

theorem smokeTrie_one :
    Trie.fuzzySearch smokeTrie ['o', 'l', 'i', 'v', 'i', 'e', 'r'] 1 =
      {['o', 'l', 'i', 'v', 'i', 'e', 'r'], ['o', 'l', 'i', 'v', 'e', 'r'],
        ['a', 'l', 'i', 'v', 'i', 'e', 'r']} := by
  decide

theorem smokeTrie_olivia_two :
    Trie.fuzzySearch smokeTrie ['o', 'l', 'i', 'v', 'i', 'a'] 2 =
      {['o', 'l', 'i', 'v', 'i', 'e', 'r'], ['o', 'l', 'i', 'v', 'e', 'r']} := by
  decide

theorem smokeTrie_olivia_zero :
    Trie.fuzzySearch smokeTrie ['o', 'l', 'i', 'v', 'i', 'a'] 0 = ∅ := by
  decide
